import Mathlib

/-!
Verification of the community-detection and structural-metrics layer of the
project_bioensis pipeline (src/code/clustering_red.py,
src/code/scripts/clustering.py, src/code/analizar_topologia_red.py,
src/code/scripts/analizar_topologia_red.py).

Python floats are modelled by exact rationals; NetworkX graph objects are
modelled by an explicit record carrying the node insertion order and the
edge insertion order, which is what the Python code observes through
G.nodes(), G.edges() and dict iteration order.  Python exceptions are
modelled by Option / Except results.
-/

namespace Bioensis

/-- One NetworkX edge record: the unordered pair {u, v} together with the
attribute dictionary set by the loaders, sim = score, weight = score,
dist = 1 - score. -/
structure EdgeRec where
  u : String
  v : String
  sim : ℚ
  weight : ℚ
  dst : ℚ
deriving DecidableEq

/-- A NetworkX undirected graph: nodes in insertion order, edge records in
insertion order.  add_edge is the only constructor used by the loaders. -/
structure Graph where
  nodes : List String
  edges : List EdgeRec
deriving DecidableEq

def emptyGraph : Graph := ⟨[], []⟩

/-- Whether the unordered pairs {a,b} and {x,y} coincide. -/
def samePair (a b x y : String) : Bool :=
  (a = x && b = y) || (a = y && b = x)

/-- nx.Graph.add_edge(a, b, sim=s, weight=s, dist=1-s): endpoints are added
as nodes if absent (a first, then b), and the attribute dictionary of the
edge {a,b} is overwritten (last write wins); a fresh edge is appended. -/
def insNode (l : List String) (x : String) : List String :=
  if x ∈ l then l else l ++ [x]

def addEdge (G : Graph) (a b : String) (s : ℚ) : Graph :=
  let n2 := insNode (insNode G.nodes a) b
  let es :=
    if G.edges.any (fun e => samePair a b e.u e.v) then
      G.edges.map (fun e =>
        if samePair a b e.u e.v then { e with sim := s, weight := s, dst := 1 - s } else e)
    else
      G.edges ++ [⟨a, b, s, s, 1 - s⟩]
  ⟨n2, es⟩

/-- Value of a decimal digit character. -/
def charDigit (c : Char) : ℕ := c.toNat - '0'.toNat

def digitsVal (cs : List Char) : ℕ :=
  cs.foldl (fun acc c => 10 * acc + charDigit c) 0

theorem digitsVal_def (cs : List Char) :
    digitsVal cs = cs.foldl (fun acc c => 10 * acc + charDigit c) 0 := rfl

/-- Python str.split(sep) for a one-character separator, over the
character list of the string. -/
def splitOnChar (sep : Char) : List Char → List (List Char)
  | [] => [[]]
  | c :: cs =>
    if c = sep then [] :: splitOnChar sep cs
    else
      match splitOnChar sep cs with
      | [] => [[c]]
      | f :: r => (c :: f) :: r

/-- Python str.strip(): drop leading and trailing whitespace. -/
def trimChars (l : List Char) : List Char :=
  ((l.dropWhile Char.isWhitespace).reverse.dropWhile Char.isWhitespace).reverse

/-- Python float(s) on plain decimal notation: optional sign, integer part,
optional fractional part, at least one digit; surrounding whitespace is
stripped.  (Exponent/inf/nan forms never occur in the score column of the
edge lists this pipeline reads; they are outside this model.) -/
def parseScoreChars (cs : List Char) : Option ℚ :=
  let core := fun (u : List Char) =>
    match splitOnChar '.' u with
    | [a] =>
      if a.length > 0 && a.all Char.isDigit then
        some ((digitsVal a : ℚ))
      else none
    | [a, b] =>
      if (a.length + b.length > 0) && a.all Char.isDigit && b.all Char.isDigit then
        some ((digitsVal a : ℚ) + (digitsVal b : ℚ) / (10 : ℚ) ^ b.length)
      else none
    | _ => none
  match trimChars cs with
  | '-' :: rest => (core rest).map Neg.neg
  | '+' :: rest => core rest
  | t => core t

/-- A well-formed data row: after strip, exactly three comma-separated
fields whose third field parses as a float.  Mirrors the body of the try
block in build_graph_from_file. -/
def parseRow (line : String) : Option (String × String × ℚ) :=
  match splitOnChar ',' (trimChars line.data) with
  | [a, b, s] => (parseScoreChars s).map (fun q => (String.mk a, String.mk b, q))
  | _ => none

/-- The well-formed rows of an input file, in order. -/
def wfRows (lines : List String) : List (String × String × ℚ) :=
  lines.filterMap parseRow

/-- Folding the loader over a list of already-parsed rows. -/
def graphOfRows (rows : List (String × String × ℚ)) : Graph :=
  rows.foldl (fun G r => addEdge G r.1 r.2.1 r.2.2) emptyGraph

/-- clustering_red.build_graph_from_file: every line is stripped; empty
lines are skipped; a malformed line (wrong field count or non-numeric
score) raises inside the try block, is caught, and the line is skipped;
otherwise the edge is added. -/
def buildGraphFromFile (lines : List String) : Graph :=
  lines.foldl
    (fun G line =>
      match parseRow line with
      | some r => addEdge G r.1 r.2.1 r.2.2
      | none => G)
    emptyGraph

/-- scripts/clustering.build_graph: the first line (header) is consumed by
readline; every further line must parse, otherwise ValueError propagates
(modelled as Except.error carrying the offending line). -/
def buildGraph (lines : List String) : Except String Graph :=
  (lines.drop 1).foldlM
    (fun G line =>
      match parseRow line with
      | some r => Except.ok (addEdge G r.1 r.2.1 r.2.2)
      | none => Except.error line)
    emptyGraph

/-- Well-formedness invariant every NetworkX graph satisfies: node list has
no duplicates, edge endpoints are nodes, and no two edge records describe
the same unordered pair. -/
def Wf (G : Graph) : Prop :=
  G.nodes.Nodup ∧
  (∀ e ∈ G.edges, e.u ∈ G.nodes ∧ e.v ∈ G.nodes) ∧
  G.edges.Pairwise (fun e f => samePair e.u e.v f.u f.v = false)

instance (G : Graph) : Decidable (Wf G) := by
  unfold Wf; infer_instance

/-- Whether G has an edge with unordered endpoints {a,b}. -/
def hasEdge (G : Graph) (a b : String) : Bool :=
  G.edges.any (fun e => samePair a b e.u e.v)

/-- The attribute triple (sim, weight, dist) stored on edge {a,b}. -/
def edgeAttrs (G : Graph) (a b : String) : Option (ℚ × ℚ × ℚ) :=
  (G.edges.find? (fun e => samePair a b e.u e.v)).map (fun e => (e.sim, e.weight, e.dst))

/-- The attributes dictated by the last well-formed row naming {a,b}. -/
def lastAttr (rows : List (String × String × ℚ)) (a b : String) : Option (ℚ × ℚ × ℚ) :=
  (rows.reverse.find? (fun r => samePair a b r.1 r.2.1)).map
    (fun r => (r.2.2, r.2.2, 1 - r.2.2))

section LoaderLemmas

theorem samePair_symm (a b x y : String) : samePair a b x y = samePair b a x y := by
  simp only [samePair]
  by_cases h1 : a = x <;> by_cases h2 : b = y <;> by_cases h3 : a = y <;>
    by_cases h4 : b = x <;> simp [h1, h2, h3, h4]

theorem samePair_refl_iff (a b x y : String) :
    samePair a b x y = true ↔ (a = x ∧ b = y) ∨ (a = y ∧ b = x) := by
  simp [samePair]

theorem mem_insNode (l : List String) (x y : String) :
    y ∈ insNode l x ↔ y ∈ l ∨ y = x := by
  by_cases h : x ∈ l <;> simp [insNode, h]
  rintro rfl; exact h

theorem insNode_nodup (l : List String) (x : String) (h : l.Nodup) :
    (insNode l x).Nodup := by
  by_cases hx : x ∈ l <;>
    simp [insNode, hx, List.nodup_append, h, List.disjoint_left]

theorem nodes_addEdge_mem (G : Graph) (a b x : String) (s : ℚ) :
    x ∈ (addEdge G a b s).nodes ↔ x ∈ G.nodes ∨ x = a ∨ x = b := by
  simp [addEdge, mem_insNode, or_assoc]

theorem nodes_addEdge_nodup (G : Graph) (a b : String) (s : ℚ)
    (h : G.nodes.Nodup) : (addEdge G a b s).nodes.Nodup := by
  exact insNode_nodup _ _ (insNode_nodup _ _ h)

theorem samePair_swapR (x y u v : String) : samePair x y u v = samePair x y v u := by
  simp [samePair, Bool.or_comm]

theorem samePair_comm (a b x y : String) : samePair a b x y = samePair x y a b := by
  have key : samePair a b x y = true ↔ samePair x y a b = true := by
    rw [samePair_refl_iff, samePair_refl_iff]
    constructor <;> rintro (⟨rfl, rfl⟩ | ⟨rfl, rfl⟩) <;> simp
  cases h1 : samePair a b x y <;> cases h2 : samePair x y a b <;> simp_all

theorem samePair_trans {x y p q u v : String} (h1 : samePair p q u v = true)
    (h2 : samePair x y p q = true) : samePair x y u v = true := by
  rw [samePair_refl_iff] at h1
  rcases h1 with ⟨rfl, rfl⟩ | ⟨rfl, rfl⟩
  · exact h2
  · rw [samePair_swapR]; exact h2

/-- Endpoints of edges after add_edge: each record either keeps the
endpoints of an old record or is the new pair (a, b). -/
theorem edges_addEdge_endpoints (G : Graph) (a b : String) (s : ℚ) :
    ∀ e ∈ (addEdge G a b s).edges,
      (∃ e₀ ∈ G.edges, e.u = e₀.u ∧ e.v = e₀.v) ∨ (e.u = a ∧ e.v = b) := by
  intro e he
  simp only [addEdge] at he
  split at he
  · rcases List.mem_map.mp he with ⟨e₀, h₀, rfl⟩
    split <;> exact Or.inl ⟨e₀, h₀, rfl, rfl⟩
  · rcases List.mem_append.mp he with h | h
    · exact Or.inl ⟨e, h, rfl, rfl⟩
    · simp at h; subst h; exact Or.inr ⟨rfl, rfl⟩

theorem edges_addEdge_pairwise (G : Graph) (a b : String) (s : ℚ)
    (h : G.edges.Pairwise (fun e f => samePair e.u e.v f.u f.v = false)) :
    (addEdge G a b s).edges.Pairwise (fun e f => samePair e.u e.v f.u f.v = false) := by
  simp only [addEdge]
  split
  · refine List.Pairwise.map _ ?_ h
    intro e f hef
    split <;> split <;> simpa using hef
  · rw [List.pairwise_append]
    refine ⟨h, List.pairwise_singleton _ _, ?_⟩
    rename_i hany
    intro e he f hf
    simp only [List.mem_singleton] at hf; subst hf
    have h2 : samePair a b e.u e.v = false := by
      cases h : samePair a b e.u e.v with
      | false => rfl
      | true => exact absurd (List.any_eq_true.mpr ⟨e, he, h⟩) hany
    show samePair e.u e.v a b = false
    rw [samePair_comm]; exact h2

theorem wf_addEdge (G : Graph) (a b : String) (s : ℚ) (h : Wf G) :
    Wf (addEdge G a b s) := by
  obtain ⟨h1, h2, h3⟩ := h
  refine ⟨nodes_addEdge_nodup G a b s h1, ?_, edges_addEdge_pairwise G a b s h3⟩
  intro e he
  rcases edges_addEdge_endpoints G a b s e he with ⟨e₀, h₀, hu, hv⟩ | ⟨hu, hv⟩
  · rw [hu, hv]
    exact ⟨(nodes_addEdge_mem G a b _ s).mpr (Or.inl (h2 e₀ h₀).1),
           (nodes_addEdge_mem G a b _ s).mpr (Or.inl (h2 e₀ h₀).2)⟩
  · rw [hu, hv]
    exact ⟨(nodes_addEdge_mem G a b _ s).mpr (Or.inr (Or.inl rfl)),
           (nodes_addEdge_mem G a b _ s).mpr (Or.inr (Or.inr rfl))⟩

theorem find?_map_of_pred {α : Type} (p : α → Bool) (f : α → α) (l : List α)
    (hp : ∀ e, p (f e) = p e) :
    (l.map f).find? p = (l.find? p).map f := by
  induction l with
  | nil => rfl
  | cons e l ih =>
    simp only [List.map_cons, List.find?_cons]
    rw [hp e]
    cases h : p e <;> simp [ih]

/-- edge_attrs after add_edge: the pair (a, b) now carries (s, s, 1-s),
any other pair is untouched. -/
theorem edgeAttrs_addEdge (G : Graph) (a b x y : String) (s : ℚ) :
    edgeAttrs (addEdge G a b s) x y =
      if samePair x y a b then some (s, s, 1 - s) else edgeAttrs G x y := by
  have hupd : ∀ e : EdgeRec,
      ((if samePair a b e.u e.v then { e with sim := s, weight := s, dst := 1 - s }
        else e) : EdgeRec).u = e.u ∧
      ((if samePair a b e.u e.v then { e with sim := s, weight := s, dst := 1 - s }
        else e) : EdgeRec).v = e.v := by
    intro e; split <;> exact ⟨rfl, rfl⟩
  simp only [edgeAttrs, addEdge]
  by_cases hxy : samePair x y a b = true
  · simp only [hxy, if_true]
    split
    · rename_i hany
      rw [find?_map_of_pred _ _ _ (fun e => by rw [(hupd e).1, (hupd e).2])]
      rcases List.any_eq_true.mp hany with ⟨e₀, he₀, hm⟩
      have hs : (G.edges.find? (fun e => samePair x y e.u e.v)).isSome :=
        List.find?_isSome.mpr ⟨e₀, he₀, samePair_trans hm hxy⟩
      rcases Option.isSome_iff_exists.mp hs with ⟨e₁, he₁⟩
      have hp1 : samePair x y e₁.u e₁.v = true := by
        have h0 := List.find?_some he₁
        simpa using h0
      have hxy' : samePair a b x y = true := by rw [← samePair_comm]; exact hxy
      have hab1 : samePair a b e₁.u e₁.v = true := samePair_trans hp1 hxy'
      rw [he₁]
      simp [hab1]
    · rename_i hany
      have hxy' : samePair a b x y = true := by rw [← samePair_comm]; exact hxy
      have hnone : G.edges.find? (fun e => samePair x y e.u e.v) = none := by
        rw [List.find?_eq_none]
        intro e he hpe
        exact absurd (List.any_eq_true.mpr ⟨e, he, samePair_trans hpe hxy'⟩) hany
      rw [List.find?_append, hnone]
      simp [hxy]
  · simp only [hxy, if_false]
    have hxyf : samePair x y a b = false := by simpa using hxy
    split
    · rw [find?_map_of_pred _ _ _ (fun e => by rw [(hupd e).1, (hupd e).2])]
      cases hfind : G.edges.find? (fun e => samePair x y e.u e.v) with
      | none => simp
      | some e₁ =>
        have hp1 : samePair x y e₁.u e₁.v = true := by
          have h0 := List.find?_some hfind
          simpa using h0
        have : samePair a b e₁.u e₁.v = false := by
          by_contra hc
          simp only [Bool.not_eq_false] at hc
          have hc' : samePair e₁.u e₁.v a b = true := by
            rw [samePair_comm]; exact hc
          exact hxy (samePair_trans hc' hp1)
        simp [this]
    · rw [List.find?_append]
      have : [(⟨a, b, s, s, 1 - s⟩ : EdgeRec)].find?
          (fun e => samePair x y e.u e.v) = none := by
        simp [hxyf]
      rw [this]
      simp

end LoaderLemmas

section LoaderFold

/-- Folding the loader body over rows starting from an arbitrary graph. -/
def foldRows (G : Graph) (rows : List (String × String × ℚ)) : Graph :=
  rows.foldl (fun H r => addEdge H r.1 r.2.1 r.2.2) G

theorem graphOfRows_eq_foldRows (rows : List (String × String × ℚ)) :
    graphOfRows rows = foldRows emptyGraph rows := rfl

theorem wf_foldRows (rows : List (String × String × ℚ)) :
    ∀ G : Graph, Wf G → Wf (foldRows G rows) := by
  induction rows with
  | nil => intro G h; exact h
  | cons r rows ih =>
    intro G h
    exact ih _ (wf_addEdge G r.1 r.2.1 r.2.2 h)

theorem wf_emptyGraph : Wf emptyGraph := by
  refine ⟨List.nodup_nil, ?_, List.Pairwise.nil⟩
  intro e he; cases he

theorem nodes_foldRows_mem (rows : List (String × String × ℚ)) :
    ∀ (G : Graph) (x : String),
      x ∈ (foldRows G rows).nodes ↔
        x ∈ G.nodes ∨ ∃ r ∈ rows, x = r.1 ∨ x = r.2.1 := by
  induction rows with
  | nil => intro G x; simp [foldRows]
  | cons r rows ih =>
    intro G x
    show x ∈ (foldRows (addEdge G r.1 r.2.1 r.2.2) rows).nodes ↔ _
    rw [ih]
    rw [nodes_addEdge_mem]
    simp only [List.mem_cons]
    constructor
    · rintro ((h | h | h) | ⟨r', hr', h⟩)
      · exact Or.inl h
      · exact Or.inr ⟨r, Or.inl rfl, Or.inl h⟩
      · exact Or.inr ⟨r, Or.inl rfl, Or.inr h⟩
      · exact Or.inr ⟨r', Or.inr hr', h⟩
    · rintro (h | ⟨r', (rfl | hr'), h⟩)
      · exact Or.inl (Or.inl h)
      · rcases h with h | h
        · exact Or.inl (Or.inr (Or.inl h))
        · exact Or.inl (Or.inr (Or.inr h))
      · exact Or.inr ⟨r', hr', h⟩

theorem lastAttr_cons (r : String × String × ℚ) (rows : List (String × String × ℚ))
    (a b : String) :
    lastAttr (r :: rows) a b =
      (lastAttr rows a b).or
        (if samePair a b r.1 r.2.1 then some (r.2.2, r.2.2, 1 - r.2.2) else none) := by
  simp only [lastAttr, List.reverse_cons, List.find?_append]
  cases h : (rows.reverse.find? fun r => samePair a b r.1 r.2.1) with
  | none => simp [h]
  | some r' => simp [h]

theorem edgeAttrs_foldRows (rows : List (String × String × ℚ)) :
    ∀ (G : Graph) (a b : String),
      edgeAttrs (foldRows G rows) a b = (lastAttr rows a b).or (edgeAttrs G a b) := by
  induction rows with
  | nil => intro G a b; simp [foldRows, lastAttr]
  | cons r rows ih =>
    intro G a b
    show edgeAttrs (foldRows (addEdge G r.1 r.2.1 r.2.2) rows) a b = _
    rw [ih, edgeAttrs_addEdge, lastAttr_cons]
    cases hL : lastAttr rows a b with
    | some v => simp
    | none =>
      simp only [Option.none_or]
      split <;> simp

theorem hasEdge_isSome_attrs (G : Graph) (a b : String) :
    hasEdge G a b = true ↔ (edgeAttrs G a b).isSome := by
  simp [hasEdge, edgeAttrs, List.any_eq_true]

theorem buildGraphFromFile_eq (lines : List String) :
    buildGraphFromFile lines = graphOfRows (wfRows lines) := by
  rw [graphOfRows_eq_foldRows]
  show List.foldl _ emptyGraph lines = _
  generalize emptyGraph = G
  induction lines generalizing G with
  | nil => rfl
  | cons l ls ih =>
    show List.foldl _ (match parseRow l with
      | some r => addEdge G r.1 r.2.1 r.2.2
      | none => G) ls = foldRows G (wfRows (l :: ls))
    cases h : parseRow l with
    | some r =>
      simp only [wfRows, List.filterMap_cons, h]
      exact ih _
    | none =>
      simp only [wfRows, List.filterMap_cons, h]
      exact ih _

theorem buildGraph_ok_of_wf (lines : List String)
    (h : ∀ l ∈ lines.drop 1, (parseRow l).isSome) :
    buildGraph lines = Except.ok (buildGraphFromFile (lines.drop 1)) := by
  rw [buildGraphFromFile_eq, graphOfRows_eq_foldRows]
  show List.foldlM _ emptyGraph (lines.drop 1) = _
  generalize lines.drop 1 = ls at h
  generalize emptyGraph = G
  induction ls generalizing G with
  | nil => rfl
  | cons l ls ih =>
    have hl : (parseRow l).isSome := h l (List.mem_cons_self l ls)
    rcases Option.isSome_iff_exists.mp hl with ⟨r, hr⟩
    have hrec := ih (fun x hx => h x (List.mem_cons_of_mem l hx)) (addEdge G r.1 r.2.1 r.2.2)
    simp only [List.foldlM_cons, hr]
    show List.foldlM _ (addEdge G r.1 r.2.1 r.2.2) ls = _
    rw [hrec]
    simp only [wfRows, List.filterMap_cons, hr]
    rfl

end LoaderFold

section ClaimC6C9

/-- C6 (corrected part): build_graph_from_file never fails, and the graph it
returns is exactly the graph of the well-formed rows: it is the fold of
add_edge over them, and its edge set consists precisely of the unordered
pairs named by some well-formed row.  The build_graph variant of
scripts/clustering.py succeeds (returning the same graph) exactly when every
data row is well formed. -/
theorem claim_C6 (lines : List String) :
    buildGraphFromFile lines = graphOfRows (wfRows lines) ∧
    (∀ a b, hasEdge (buildGraphFromFile lines) a b = true ↔
      ∃ r ∈ wfRows lines, samePair a b r.1 r.2.1 = true) ∧
    ((∀ l ∈ lines.drop 1, (parseRow l).isSome) →
      buildGraph lines = Except.ok (buildGraphFromFile (lines.drop 1))) := by
  refine ⟨buildGraphFromFile_eq lines, ?_, buildGraph_ok_of_wf lines⟩
  intro a b
  rw [hasEdge_isSome_attrs, buildGraphFromFile_eq, graphOfRows_eq_foldRows,
    edgeAttrs_foldRows]
  have hempty : edgeAttrs emptyGraph a b = none := rfl
  rw [hempty]
  simp only [Option.or_none, lastAttr, Option.isSome_map']
  rw [List.find?_isSome]
  constructor
  · rintro ⟨r, hr, hm⟩; exact ⟨r, List.mem_reverse.mp hr, hm⟩
  · rintro ⟨r, hr, hm⟩; exact ⟨r, List.mem_reverse.mpr hr, hm⟩

/-- C6, counterexample to the claim as stated: the scripts/clustering.py
loader build_graph does not skip a malformed data row; it raises.  Input
with header plus one row whose score is not numeric. -/
theorem claim_C6_counterexample :
    buildGraph ["gen1,gen2,score", "A,B,x"] = Except.error "A,B,x" := by
  rfl

/-- C6 witness: a file with a malformed row in build_graph_from_file, and a
fully well-formed file in build_graph. -/
theorem claim_C6_witness :
    (buildGraphFromFile ["A,B,0.9", "bad line"] =
      graphOfRows (wfRows ["A,B,0.9", "bad line"])) ∧
    buildGraph ["gen1,gen2,score", "A,B,0.9"] =
      Except.ok (buildGraphFromFile ["A,B,0.9"]) := by
  exact ⟨(claim_C6 ["A,B,0.9", "bad line"]).1,
    (claim_C6 ["gen1,gen2,score", "A,B,0.9"]).2.2 (by decide)⟩

/-- C9 (corrected part): the loader graph satisfies the graph invariant (no
two records for the same unordered pair: no duplicate edges), the stored
attributes of every unordered pair are those of its last well-formed
occurrence (last write wins, and pairs never named are absent), and the
node set is exactly the set of endpoints of well-formed rows. -/
theorem claim_C9 (lines : List String) :
    Wf (buildGraphFromFile lines) ∧
    (∀ a b, edgeAttrs (buildGraphFromFile lines) a b = lastAttr (wfRows lines) a b) ∧
    (∀ x, x ∈ (buildGraphFromFile lines).nodes ↔
      ∃ r ∈ wfRows lines, x = r.1 ∨ x = r.2.1) := by
  rw [buildGraphFromFile_eq, graphOfRows_eq_foldRows]
  refine ⟨wf_foldRows _ emptyGraph wf_emptyGraph, ?_, ?_⟩
  · intro a b
    rw [edgeAttrs_foldRows]
    have hempty : edgeAttrs emptyGraph a b = none := rfl
    rw [hempty, Option.or_none]
  · intro x
    rw [nodes_foldRows_mem]
    have : x ∈ emptyGraph.nodes ↔ False := by simp [emptyGraph]
    simp [emptyGraph]

/-- C9, counterexample to the claim as stated: a row naming the same node
twice produces a self-loop, so the loader graph can contain self-loops. -/
theorem claim_C9_counterexample :
    (buildGraphFromFile ["A,A,0.5"]).edges.any (fun e => e.u = e.v) = true := by
  rfl

end ClaimC6C9

section Conductance

/-- Number of endpoints of edge e equal to n (2 for a self-loop at n):
this is n's contribution to the degree from e, as in nx.Graph.degree. -/
def endCount (e : EdgeRec) (n : String) : ℕ :=
  (if e.u = n then 1 else 0) + (if e.v = n then 1 else 0)

/-- Unweighted nx degree of node n. -/
def degree (G : Graph) (n : String) : ℕ :=
  (G.edges.map (fun e => endCount e n)).sum

/-- sum(dict(G.degree(S)).values()) for the set of nodes satisfying p:
the degree view silently restricts to nodes of G, each counted once. -/
def volumeP (G : Graph) (p : String → Bool) : ℕ :=
  ((G.nodes.filter p).map (degree G)).sum

/-- Volume of the community side C. -/
def volC (G : Graph) (community : List String) : ℕ :=
  volumeP G (fun n => decide (n ∈ community))

/-- Volume of the complement side set(G.nodes()) - C. -/
def volNotC (G : Graph) (community : List String) : ℕ :=
  volumeP G (fun n => decide (n ∉ community))

/-- Number of boundary edges: edges with exactly one endpoint in C. -/
def cutCount (G : Graph) (community : List String) : ℕ :=
  G.edges.countP (fun e => decide (e.u ∈ community) != decide (e.v ∈ community))

/-- clustering_red.conductance: cut / min(vol(C), vol(not C)), with an
explicit 0.0 guard when either side has zero volume. -/
def conductance (G : Graph) (community : List String) : ℚ :=
  if min (volC G community) (volNotC G community) = 0 then 0
  else (cutCount G community : ℚ) / (min (volC G community) (volNotC G community) : ℚ)

theorem sum_map_add (l : List α) (f g : α → ℕ) :
    (l.map (fun a => f a + g a)).sum = (l.map f).sum + (l.map g).sum := by
  induction l with
  | nil => rfl
  | cons a l ih => simp [ih]; omega

theorem list_sum_swap (l : List α) (m : List β) (f : α → β → ℕ) :
    (l.map (fun a => (m.map (f a)).sum)).sum =
      (m.map (fun b => (l.map (fun a => f a b)).sum)).sum := by
  induction l with
  | nil => simp
  | cons a l ih =>
    simp only [List.map_cons, List.sum_cons, ih]
    rw [← sum_map_add]

theorem sum_indicator_nodup (l : List String) (x : String) (h : l.Nodup) :
    (l.map (fun n => if x = n then 1 else 0)).sum = if x ∈ l then 1 else 0 := by
  induction l with
  | nil => simp
  | cons n l ih =>
    rcases List.nodup_cons.mp h with ⟨hn, hl⟩
    by_cases hx : x = n
    · subst hx
      simp only [List.map_cons, List.sum_cons, if_pos rfl, List.mem_cons, true_or, if_true]
      have : (l.map (fun n => if x = n then 1 else 0)).sum = 0 := by
        rw [ih hl, if_neg hn]
      omega
    · simp only [List.map_cons, List.sum_cons, if_neg hx, ih hl, List.mem_cons]
      simp [hx]

theorem countP_eq_sum_indicator (l : List α) (p : α → Bool) :
    l.countP p = (l.map (fun a => if p a then 1 else 0)).sum := by
  induction l with
  | nil => rfl
  | cons a l ih =>
    rw [List.countP_cons]
    by_cases h : p a <;> simp [h, ih] <;> omega

/-- The volume of a side equals, summed over the edges, the number of edge
endpoints lying on that side. -/
theorem volumeP_eq_sum_edges (G : Graph) (p : String → Bool) (hwf : Wf G) :
    volumeP G p =
      (G.edges.map (fun e =>
        (if p e.u then 1 else 0) + (if p e.v then 1 else 0))).sum := by
  obtain ⟨hnd, hend, _⟩ := hwf
  unfold volumeP degree
  rw [list_sum_swap]
  congr 1
  apply List.map_congr_left
  intro e he
  have hu := (hend e he).1
  have hv := (hend e he).2
  have hfil : (G.nodes.filter p).Nodup := List.Nodup.filter p hnd
  unfold endCount
  rw [sum_map_add, sum_indicator_nodup _ _ hfil, sum_indicator_nodup _ _ hfil]
  have hmu : e.u ∈ G.nodes.filter p ↔ p e.u := by
    rw [List.mem_filter]; simp [hu]
  have hmv : e.v ∈ G.nodes.filter p ↔ p e.v := by
    rw [List.mem_filter]; simp [hv]
  by_cases h1 : p e.u <;> by_cases h2 : p e.v <;>
    simp [h1, h2, hmu, hmv]

theorem cutCount_le_volumeP (G : Graph) (community : List String) (hwf : Wf G)
    (p : String → Bool)
    (hp : ∀ e ∈ G.edges,
      (decide (e.u ∈ community) != decide (e.v ∈ community)) = true →
      p e.u = true ∨ p e.v = true) :
    cutCount G community ≤ volumeP G p := by
  rw [volumeP_eq_sum_edges G p hwf]
  unfold cutCount
  rw [countP_eq_sum_indicator]
  apply List.sum_le_sum
  intro e he
  by_cases hcut : (decide (e.u ∈ community) != decide (e.v ∈ community)) = true
  · rcases hp e he hcut with h | h <;> simp [hcut, h] <;> omega
  · simp [hcut]

theorem cutCount_le_volC (G : Graph) (community : List String) (hwf : Wf G) :
    cutCount G community ≤ volC G community := by
  apply cutCount_le_volumeP G community hwf
  intro e _ hcut
  by_cases hu : e.u ∈ community
  · exact Or.inl (by simp [hu])
  · by_cases hv : e.v ∈ community
    · exact Or.inr (by simp [hv])
    · exfalso; simp [hu, hv] at hcut

theorem cutCount_le_volNotC (G : Graph) (community : List String) (hwf : Wf G) :
    cutCount G community ≤ volNotC G community := by
  apply cutCount_le_volumeP G community hwf
  intro e _ hcut
  by_cases hu : e.u ∈ community
  · by_cases hv : e.v ∈ community
    · exfalso; simp [hu, hv] at hcut
    · exact Or.inr (by simp [hv])
  · exact Or.inl (by simp [hu])

end Conductance

section ClaimC7

/-- C7 (confirmed): conductance is boundary-edge count over the smaller of
the two volumes; it is 0.0 whenever one side has zero volume (the division
is guarded), and it lies in [0,1] whenever both sides have nonzero
volume. -/
theorem claim_C7 (G : Graph) (community : List String) (hwf : Wf G) :
    conductance G community =
      (if min (volC G community) (volNotC G community) = 0 then 0
       else (cutCount G community : ℚ) /
         (min (volC G community) (volNotC G community) : ℚ)) ∧
    (min (volC G community) (volNotC G community) = 0 →
      conductance G community = 0) ∧
    (min (volC G community) (volNotC G community) ≠ 0 →
      0 ≤ conductance G community ∧ conductance G community ≤ 1) := by
  refine ⟨rfl, ?_, ?_⟩
  · intro h; simp [conductance, h]
  · intro h
    have hpos : 0 < min (volC G community) (volNotC G community) := Nat.pos_of_ne_zero h
    have hposQ : (0 : ℚ) < (min (volC G community) (volNotC G community) : ℚ) := by
      exact_mod_cast hpos
    have hcut : cutCount G community ≤ min (volC G community) (volNotC G community) :=
      le_min (cutCount_le_volC G community hwf) (cutCount_le_volNotC G community hwf)
    have hcutQ : (cutCount G community : ℚ) ≤
        (min (volC G community) (volNotC G community) : ℚ) := by exact_mod_cast hcut
    constructor
    · rw [conductance, if_neg h]
      positivity
    · rw [conductance, if_neg h]
      rw [div_le_one hposQ]
      exact hcutQ

/-- C7 witness: the two-node single-edge graph with community {A}:
both volumes are 1, the single edge is a boundary edge, conductance 1. -/
theorem claim_C7_witness :
    Wf (buildGraphFromFile ["A,B,0.9"]) ∧
    min (volC (buildGraphFromFile ["A,B,0.9"]) ["A"])
        (volNotC (buildGraphFromFile ["A,B,0.9"]) ["A"]) ≠ 0 ∧
    0 ≤ conductance (buildGraphFromFile ["A,B,0.9"]) ["A"] ∧
    conductance (buildGraphFromFile ["A,B,0.9"]) ["A"] ≤ 1 := by
  have hwf : Wf (buildGraphFromFile ["A,B,0.9"]) := by with_unfolding_all decide
  have hmin : min (volC (buildGraphFromFile ["A,B,0.9"]) ["A"])
      (volNotC (buildGraphFromFile ["A,B,0.9"]) ["A"]) ≠ 0 := by
    with_unfolding_all decide
  exact ⟨hwf, hmin, (claim_C7 (buildGraphFromFile ["A,B,0.9"]) ["A"] hwf).2.2 hmin⟩

end ClaimC7

section Reachability

/-- Undirected adjacency test from the edge list. -/
def adjB (G : Graph) (x y : String) : Bool :=
  G.edges.any (fun e => (e.u = x && e.v = y) || (e.u = y && e.v = x))

/-- Nodes reachable in one hop from a node set S. -/
def outNbrs (G : Graph) (S : Finset String) : List String :=
  G.edges.flatMap (fun e =>
    (if e.u ∈ S then [e.v] else []) ++ (if e.v ∈ S then [e.u] else []))

/-- One expansion step of breadth-first closure. -/
def adjStep (G : Graph) (S : Finset String) : Finset String :=
  S ∪ (outNbrs G S).toFinset

/-- The connected-component closure of {x}: |V| expansion steps saturate. -/
def reachF (G : Graph) (x : String) : Finset String :=
  (adjStep G)^[G.nodes.length] {x}

theorem mem_outNbrs (G : Graph) (S : Finset String) (y : String) :
    y ∈ outNbrs G S ↔
      ∃ e ∈ G.edges, (e.u ∈ S ∧ y = e.v) ∨ (e.v ∈ S ∧ y = e.u) := by
  simp only [outNbrs, List.mem_flatMap, List.mem_append]
  constructor
  · rintro ⟨e, he, h | h⟩
    · split at h <;> simp at h
      · rename_i hs; exact ⟨e, he, Or.inl ⟨hs, h⟩⟩
    · split at h <;> simp at h
      · rename_i hs; exact ⟨e, he, Or.inr ⟨hs, h⟩⟩
  · rintro ⟨e, he, ⟨hs, rfl⟩ | ⟨hs, rfl⟩⟩
    · exact ⟨e, he, Or.inl (by simp [hs])⟩
    · exact ⟨e, he, Or.inr (by simp [hs])⟩

theorem subset_adjStep (G : Graph) (S : Finset String) : S ⊆ adjStep G S :=
  Finset.subset_union_left

theorem adjStep_mono (G H : Graph) (S T : Finset String)
    (hE : ∀ e ∈ G.edges, e ∈ H.edges) (hST : S ⊆ T) :
    adjStep G S ⊆ adjStep H T := by
  intro y hy
  rcases Finset.mem_union.mp hy with h | h
  · exact Finset.mem_union_left _ (hST h)
  · rcases (mem_outNbrs G S y).mp (List.mem_toFinset.mp h) with ⟨e, he, hc⟩
    refine Finset.mem_union_right _ (List.mem_toFinset.mpr ?_)
    refine (mem_outNbrs H T y).mpr ⟨e, hE e he, ?_⟩
    rcases hc with ⟨hs, rfl⟩ | ⟨hs, rfl⟩
    · exact Or.inl ⟨hST hs, rfl⟩
    · exact Or.inr ⟨hST hs, rfl⟩

theorem iterate_adjStep_mono (G H : Graph) (S T : Finset String) (k : ℕ)
    (hE : ∀ e ∈ G.edges, e ∈ H.edges) (hST : S ⊆ T) :
    (adjStep G)^[k] S ⊆ (adjStep H)^[k] T := by
  induction k generalizing S T with
  | zero => exact hST
  | succ k ih =>
    rw [Function.iterate_succ_apply, Function.iterate_succ_apply]
    exact ih _ _ (adjStep_mono G H S T hE hST)

theorem iterate_adjStep_le (G : Graph) (S : Finset String) (k l : ℕ) (h : k ≤ l) :
    (adjStep G)^[k] S ⊆ (adjStep G)^[l] S := by
  induction l with
  | zero => cases Nat.le_zero.mp h; exact fun _ hy => hy
  | succ l ih =>
    rcases Nat.lt_or_ge k (l + 1) with hk | hk
    · have h1 := ih (Nat.lt_succ_iff.mp hk)
      rw [Function.iterate_succ_apply']
      exact h1.trans (subset_adjStep G _)
    · have : k = l + 1 := Nat.le_antisymm h hk
      subst this; exact fun _ hy => hy

theorem adjStep_subset_nodes (G : Graph) (S : Finset String) (hwf : Wf G)
    (hS : S ⊆ G.nodes.toFinset) : adjStep G S ⊆ G.nodes.toFinset := by
  intro y hy
  rcases Finset.mem_union.mp hy with h | h
  · exact hS h
  · rcases (mem_outNbrs G S y).mp (List.mem_toFinset.mp h) with ⟨e, he, hc⟩
    have hend := hwf.2.1 e he
    rcases hc with ⟨_, rfl⟩ | ⟨_, rfl⟩
    · exact List.mem_toFinset.mpr hend.2
    · exact List.mem_toFinset.mpr hend.1

theorem reachF_subset_nodes (G : Graph) (x : String) (hwf : Wf G)
    (hx : x ∈ G.nodes) : reachF G x ⊆ G.nodes.toFinset := by
  unfold reachF
  generalize G.nodes.length = k
  induction k with
  | zero => simpa using List.mem_toFinset.mpr hx
  | succ k ih =>
    rw [Function.iterate_succ_apply']
    exact adjStep_subset_nodes G _ hwf ih

theorem iterate_fix_propagate (G : Graph) (S : Finset String) (k : ℕ)
    (h : adjStep G ((adjStep G)^[k] S) = (adjStep G)^[k] S) :
    ∀ l, k ≤ l → (adjStep G)^[l] S = (adjStep G)^[k] S := by
  intro l hl
  induction l with
  | zero => cases Nat.le_zero.mp hl; rfl
  | succ l ih =>
    rcases Nat.lt_or_ge k (l + 1) with hk | hk
    · have h1 := ih (Nat.lt_succ_iff.mp hk)
      rw [Function.iterate_succ_apply', h1, h]
    · have : k = l + 1 := Nat.le_antisymm hl hk
      rw [this]

theorem iterate_fix_or_card (G : Graph) (S : Finset String) :
    ∀ k : ℕ, adjStep G ((adjStep G)^[k] S) = (adjStep G)^[k] S ∨
      k + S.card ≤ ((adjStep G)^[k] S).card := by
  intro k
  induction k with
  | zero => exact Or.inr (by simp)
  | succ k ih =>
    rcases ih with h | h
    · left
      rw [Function.iterate_succ_apply', h, h]
    · by_cases heq : adjStep G ((adjStep G)^[k] S) = (adjStep G)^[k] S
      · left
        rw [Function.iterate_succ_apply', heq]
        exact heq
      · right
        rw [Function.iterate_succ_apply']
        have hss : (adjStep G)^[k] S ⊂ adjStep G ((adjStep G)^[k] S) :=
          ⟨subset_adjStep G _, fun hc =>
            heq (le_antisymm hc (subset_adjStep G _))⟩
        have := Finset.card_lt_card hss
        omega

/-- After |V| steps the closure is saturated. -/
theorem adjStep_reachF (G : Graph) (x : String) (hwf : Wf G) (hx : x ∈ G.nodes) :
    adjStep G (reachF G x) = reachF G x := by
  rcases iterate_fix_or_card G {x} G.nodes.length with h | h
  · exact h
  · exfalso
    have h1 : reachF G x ⊆ G.nodes.toFinset := reachF_subset_nodes G x hwf hx
    have h2 := Finset.card_le_card h1
    have h3 : G.nodes.toFinset.card ≤ G.nodes.length := G.nodes.toFinset_card_le
    simp only [Finset.card_singleton] at h
    unfold reachF at h2
    omega

theorem mem_reachF_self (G : Graph) (x : String) : x ∈ reachF G x := by
  have h : ({x} : Finset String) ⊆ reachF G x := by
    have := iterate_adjStep_le G {x} 0 G.nodes.length (Nat.zero_le _)
    simpa using this
  exact h (Finset.mem_singleton_self x)

theorem iterate_subset_of_closed (G : Graph) (T : Finset String) (y : String)
    (hT : adjStep G T ⊆ T) (hy : y ∈ T) :
    ∀ k, (adjStep G)^[k] {y} ⊆ T := by
  intro k
  induction k with
  | zero => simpa using hy
  | succ k ih =>
    rw [Function.iterate_succ_apply']
    exact (adjStep_mono G G _ _ (fun e he => he) ih).trans hT

theorem reachF_trans (G : Graph) (x y : String) (hwf : Wf G) (hx : x ∈ G.nodes)
    (hy : y ∈ reachF G x) : reachF G y ⊆ reachF G x := by
  exact iterate_subset_of_closed G (reachF G x) y
    (le_of_eq (adjStep_reachF G x hwf hx)) hy G.nodes.length

theorem reachF_symm (G : Graph) (x : String) (hwf : Wf G) (hx : x ∈ G.nodes) :
    ∀ (k : ℕ) (y : String), y ∈ (adjStep G)^[k] {x} → x ∈ reachF G y := by
  intro k
  induction k with
  | zero =>
    intro y hy
    simp only [Function.iterate_zero, id_eq, Finset.mem_singleton] at hy
    rw [hy]; exact mem_reachF_self G x
  | succ k ih =>
    intro y hy
    rw [Function.iterate_succ_apply'] at hy
    rcases Finset.mem_union.mp hy with h | h
    · exact ih y h
    · rcases (mem_outNbrs G _ y).mp (List.mem_toFinset.mp h) with ⟨e, he, hc⟩
      have step1 : ∀ u, u ∈ (adjStep G)^[k] {x} → u ∈ adjStep G {y} → x ∈ reachF G y := by
        intro u hu hustep
        have hxu : x ∈ reachF G u := ih u hu
        have huy : u ∈ reachF G y := by
          have h1 : adjStep G {y} ⊆ (adjStep G)^[1] {y} := by
            rw [Function.iterate_one]
          have h2 := iterate_adjStep_le G {y} 1 G.nodes.length ?_
          · exact h2 (h1 hustep)
          · by_contra hn
            push_neg at hn
            interval_cases hlen : G.nodes.length
            · -- no nodes: but u is an endpoint of an edge of G, contradiction
              have hend := hwf.2.1 e he
              rw [List.length_eq_zero] at hlen
              rw [hlen] at hend
              simp at hend
        have hynodes : y ∈ G.nodes := by
          have hend := hwf.2.1 e he
          rcases hc with ⟨_, rfl⟩ | ⟨_, rfl⟩
          · exact hend.2
          · exact hend.1
        exact (reachF_trans G y u hwf hynodes huy) hxu
      rcases hc with ⟨hu, rfl⟩ | ⟨hu, rfl⟩
      · refine step1 e.u hu ?_
        refine Finset.mem_union_right _ (List.mem_toFinset.mpr ?_)
        exact (mem_outNbrs G {e.v} e.u).mpr ⟨e, he, Or.inr ⟨Finset.mem_singleton_self _, rfl⟩⟩
      · refine step1 e.v hu ?_
        refine Finset.mem_union_right _ (List.mem_toFinset.mpr ?_)
        exact (mem_outNbrs G {e.u} e.v).mpr ⟨e, he, Or.inl ⟨Finset.mem_singleton_self _, rfl⟩⟩

theorem reachF_symm' (G : Graph) (x y : String) (hwf : Wf G) (hx : x ∈ G.nodes)
    (hy : y ∈ reachF G x) : x ∈ reachF G y :=
  reachF_symm G x hwf hx G.nodes.length y hy

theorem reachF_congr (G : Graph) (x y : String) (hwf : Wf G) (hx : x ∈ G.nodes)
    (hy : y ∈ reachF G x) : reachF G x = reachF G y := by
  have hynodes : y ∈ G.nodes := by
    have := reachF_subset_nodes G x hwf hx hy
    exact List.mem_toFinset.mp this
  apply le_antisymm
  · exact reachF_trans G y x hwf hynodes (reachF_symm' G x y hwf hx hy)
  · exact reachF_trans G x y hwf hx hy

end Reachability

section Components

/-- The connected component of x, listed in node order. -/
def compList (G : Graph) (x : String) : List String :=
  G.nodes.filter (fun v => decide (v ∈ reachF G x))

/-- nx.connected_components: iterate nodes in order, emit the component of
each not-yet-seen node. -/
def componentsOfAux (G : Graph) : List String → Finset String → List (List String)
  | [], _ => []
  | n :: rest, seen =>
    if n ∈ seen then componentsOfAux G rest seen
    else compList G n :: componentsOfAux G rest (seen ∪ reachF G n)

def componentsOf (G : Graph) : List (List String) :=
  componentsOfAux G G.nodes ∅

theorem mem_compList (G : Graph) (x v : String) :
    v ∈ compList G x ↔ v ∈ G.nodes ∧ v ∈ reachF G x := by
  simp [compList, List.mem_filter]

theorem componentsOfAux_shape (G : Graph) :
    ∀ (rest : List String) (seen : Finset String) (c : List String),
      c ∈ componentsOfAux G rest seen → ∃ r ∈ rest, c = compList G r := by
  intro rest
  induction rest with
  | nil => intro seen c hc; cases hc
  | cons n rest ih =>
    intro seen c hc
    unfold componentsOfAux at hc
    split at hc
    · rcases ih _ _ hc with ⟨r, hr, hcr⟩
      exact ⟨r, List.mem_cons_of_mem n hr, hcr⟩
    · rcases List.mem_cons.mp hc with rfl | hc'
      · exact ⟨n, List.mem_cons_self n rest, rfl⟩
      · rcases ih _ _ hc' with ⟨r, hr, hcr⟩
        exact ⟨r, List.mem_cons_of_mem n hr, hcr⟩

/-- Core counting invariant for the component scan. -/
theorem componentsOfAux_count (G : Graph) (hwf : Wf G) :
    ∀ (rest : List String) (seen : Finset String),
      (∀ u ∈ G.nodes, ∀ w, u ∈ seen → w ∈ reachF G u → w ∈ seen) →
      (∀ v ∈ G.nodes, v ∉ seen → v ∈ rest) →
      (∀ n ∈ rest, n ∈ G.nodes) →
      ∀ v ∈ G.nodes,
        (componentsOfAux G rest seen).countP (fun c => decide (v ∈ c)) =
          if v ∈ seen then 0 else 1 := by
  intro rest
  induction rest with
  | nil =>
    intro seen hclosed hcover hsub v hv
    simp only [componentsOfAux, List.countP_nil]
    by_cases h : v ∈ seen
    · rw [if_pos h]
    · exact absurd (hcover v hv h) (List.not_mem_nil v)
  | cons n rest ih =>
    intro seen hclosed hcover hsub v hv
    have hn : n ∈ G.nodes := hsub n (List.mem_cons_self n rest)
    unfold componentsOfAux
    split
    · rename_i hns
      apply ih seen hclosed ?_ (fun m hm => hsub m (List.mem_cons_of_mem n hm)) v hv
      intro u hu hunot
      rcases List.mem_cons.mp (hcover u hu hunot) with rfl | h
      · exact absurd hns hunot
      · exact h
    · rename_i hns
      rw [List.countP_cons]
      have hclosed' : ∀ u ∈ G.nodes, ∀ w, u ∈ seen ∪ reachF G n →
          w ∈ reachF G u → w ∈ seen ∪ reachF G n := by
        intro u hu w husn hw
        rcases Finset.mem_union.mp husn with h | h
        · exact Finset.mem_union_left _ (hclosed u hu w h hw)
        · refine Finset.mem_union_right _ ?_
          have : reachF G n = reachF G u := reachF_congr G n u hwf hn h
          rw [this]; exact hw
      have hcover' : ∀ u ∈ G.nodes, u ∉ seen ∪ reachF G n → u ∈ rest := by
        intro u hu hunot
        rw [Finset.mem_union] at hunot
        push_neg at hunot
        rcases List.mem_cons.mp (hcover u hu hunot.1) with rfl | h
        · exact absurd (mem_reachF_self G u) hunot.2
        · exact h
      have ihres := ih (seen ∪ reachF G n) hclosed' hcover'
        (fun m hm => hsub m (List.mem_cons_of_mem n hm)) v hv
      by_cases hvr : v ∈ reachF G n
      · have hvseen : v ∉ seen := by
          intro hvs
          have hclosed_v := hclosed v hv n hvs (reachF_symm' G n v hwf hn hvr)
          exact hns hclosed_v
        have h1 : (decide (v ∈ compList G n)) = true := by
          simp [mem_compList, hv, hvr]
        rw [ihres, if_pos (Finset.mem_union_right _ hvr), if_neg hvseen]
        simp [h1]
      · have h1 : (decide (v ∈ compList G n)) = false := by
          simp [mem_compList, hvr]
        have hmem : v ∈ seen ∪ reachF G n ↔ v ∈ seen := by
          rw [Finset.mem_union]
          exact ⟨fun h => h.resolve_right hvr, Or.inl⟩
        rw [ihres]
        by_cases hvs : v ∈ seen
        · rw [if_pos (hmem.mpr hvs), if_pos hvs]; simp [h1]
        · rw [if_neg (fun hc => hvs (hmem.mp hc)), if_neg hvs]; simp [h1]

/-- Connected components partition the node set: every node is in exactly
one component. -/
theorem componentsOf_count (G : Graph) (hwf : Wf G) (v : String) (hv : v ∈ G.nodes) :
    (componentsOf G).countP (fun c => decide (v ∈ c)) = 1 := by
  have := componentsOfAux_count G hwf G.nodes ∅
    (fun u _ w hu _ => absurd hu (Finset.not_mem_empty u))
    (fun v hv _ => hv) (fun n hn => hn) v hv
  simpa [componentsOf] using this

theorem componentsOf_subsets (G : Graph) (c : List String)
    (hc : c ∈ componentsOf G) : ∀ v ∈ c, v ∈ G.nodes := by
  rcases componentsOfAux_shape G G.nodes ∅ c hc with ⟨r, _, rfl⟩
  intro v hvc
  exact ((mem_compList G r v).mp hvc).1

theorem componentsOf_nonempty (G : Graph) (c : List String)
    (hc : c ∈ componentsOf G) : c ≠ [] := by
  rcases componentsOfAux_shape G G.nodes ∅ c hc with ⟨r, hr, rfl⟩
  intro hnil
  have : r ∈ compList G r := (mem_compList G r r).mpr ⟨hr, mem_reachF_self G r⟩
  rw [hnil] at this
  cases this

theorem exists_comp_of_mem (G : Graph) (hwf : Wf G) (v : String) (hv : v ∈ G.nodes) :
    ∃ c ∈ componentsOf G, v ∈ c := by
  have h := componentsOf_count G hwf v hv
  have hpos : 0 < (componentsOf G).countP (fun c => decide (v ∈ c)) := by omega
  rcases List.countP_pos.mp hpos with ⟨c, hc, hm⟩
  exact ⟨c, hc, by simpa using hm⟩

theorem comp_unique (G : Graph) (hwf : Wf G) (v : String) (hv : v ∈ G.nodes)
    (c d : List String) (hc : c ∈ componentsOf G) (hd : d ∈ componentsOf G)
    (hvc : v ∈ c) (hvd : v ∈ d) : c = d := by
  by_contra hne
  have h := componentsOf_count G hwf v hv
  have hcf : c ∈ (componentsOf G).filter (fun c => decide (v ∈ c)) :=
    List.mem_filter.mpr ⟨hc, by simpa using hvc⟩
  have hdf : d ∈ (componentsOf G).filter (fun c => decide (v ∈ c)) :=
    List.mem_filter.mpr ⟨hd, by simpa using hvd⟩
  have hdf' : d ∈ ((componentsOf G).filter (fun c => decide (v ∈ c))).erase c :=
    (List.mem_erase_of_ne (fun hdc => hne hdc.symm)).mpr hdf
  have hlen : ((componentsOf G).filter (fun c => decide (v ∈ c))).length = 1 := by
    rw [← List.countP_eq_length_filter]; exact h
  have hzero : (((componentsOf G).filter (fun c => decide (v ∈ c))).erase c).length = 0 := by
    rw [List.length_erase_of_mem hcf, hlen]
  rw [List.length_eq_zero] at hzero
  rw [hzero] at hdf'
  cases hdf'

end Components

section Refinement

theorem reachF_mono_graph (H K : Graph) (r : String)
    (hnodes : K.nodes = H.nodes) (hE : ∀ e ∈ K.edges, e ∈ H.edges) :
    reachF K r ⊆ reachF H r := by
  unfold reachF
  rw [hnodes]
  exact iterate_adjStep_mono K H {r} {r} H.nodes.length hE (fun _ h => h)

/-- Removing edges refines the connected-components partition: every
component of the sparser graph K is contained in a component of H. -/
theorem components_refine (H K : Graph) (hwfH : Wf H) (hwfK : Wf K)
    (hnodes : K.nodes = H.nodes) (hE : ∀ e ∈ K.edges, e ∈ H.edges) :
    ∀ c ∈ componentsOf K, ∃ d ∈ componentsOf H, ∀ v ∈ c, v ∈ d := by
  intro c hc
  rcases componentsOfAux_shape K K.nodes ∅ c hc with ⟨r, hr, rfl⟩
  have hrH : r ∈ H.nodes := hnodes ▸ hr
  rcases exists_comp_of_mem H hwfH r hrH with ⟨d, hd, hrd⟩
  refine ⟨d, hd, ?_⟩
  intro v hvc
  rcases (mem_compList K r v).mp hvc with ⟨hvK, hvreach⟩
  have hvH : v ∈ reachF H r := reachF_mono_graph H K r hnodes hE hvreach
  rcases componentsOfAux_shape H H.nodes ∅ d hd with ⟨r', hr', rfl⟩
  rcases (mem_compList H r' r).mp hrd with ⟨_, hrr'⟩
  have hcongr : reachF H r' = reachF H r := reachF_congr H r' r hwfH hr' hrr'
  refine (mem_compList H r' v).mpr ⟨hnodes ▸ hvK, ?_⟩
  rw [hcongr]; exact hvH

/-- The number of components cannot decrease when edges are removed. -/
theorem components_count_le (H K : Graph) (hwfH : Wf H) (hwfK : Wf K)
    (hnodes : K.nodes = H.nodes) (hE : ∀ e ∈ K.edges, e ∈ H.edges) :
    (componentsOf H).length ≤ (componentsOf K).length := by
  set CH := componentsOf H with hCH
  set CK := componentsOf K with hCK
  have step1 : ∀ d ∈ CH,
      1 ≤ CK.countP (fun c => !c.isEmpty && c.all (fun v => decide (v ∈ d))) := by
    intro d hd
    rcases List.exists_mem_of_ne_nil d (componentsOf_nonempty H d hd) with ⟨r, hrd⟩
    have hrH : r ∈ H.nodes := componentsOf_subsets H d hd r hrd
    have hrK : r ∈ K.nodes := hnodes ▸ hrH
    rcases exists_comp_of_mem K hwfK r hrK with ⟨c, hcK, hrc⟩
    rcases components_refine H K hwfH hwfK hnodes hE c hcK with ⟨d', hd', hsub⟩
    have hdd' : d' = d :=
      comp_unique H hwfH r hrH d' d hd' hd (hsub r hrc) hrd
    have hp : (!c.isEmpty && c.all (fun v => decide (v ∈ d))) = true := by
      have hne : c.isEmpty = false := by
        cases c with
        | nil => cases hrc
        | cons a l => rfl
      rw [hne]
      simp only [Bool.not_false, Bool.true_and, List.all_eq_true]
      intro v hv
      have := hsub v hv
      rw [hdd'] at this
      simpa using this
    have hpos : 0 < CK.countP (fun c => !c.isEmpty && c.all (fun v => decide (v ∈ d))) :=
      List.countP_pos_iff.mpr ⟨c, hcK, hp⟩
    omega
  have step2 : ∀ c ∈ CK,
      CH.countP (fun d => !c.isEmpty && c.all (fun v => decide (v ∈ d))) ≤ 1 := by
    intro c hcK
    by_cases hcnil : c = []
    · rw [hcnil]; simp
    · rcases List.exists_mem_of_ne_nil c hcnil with ⟨v0, hv0c⟩
      have hv0H : v0 ∈ H.nodes := by
        have := componentsOf_subsets K c hcK v0 hv0c
        exact hnodes ▸ this
      have hmono : CH.countP (fun d => !c.isEmpty && c.all (fun v => decide (v ∈ d))) ≤
          CH.countP (fun d => decide (v0 ∈ d)) := by
        apply List.countP_mono_left
        intro d _ hp
        rcases (Bool.and_eq_true _ _).mp hp with ⟨_, hall⟩
        have := List.all_eq_true.mp hall v0 hv0c
        simpa using this
      have hone := componentsOf_count H hwfH v0 hv0H
      rw [← hCH] at hone
      omega
  have hsum1 : ∀ (L : List (List String)), (L.map (fun _ => (1 : ℕ))).sum = L.length := by
    intro L
    induction L with
    | nil => rfl
    | cons a l ih => simp only [List.map_cons, List.sum_cons, ih, List.length_cons]; omega
  have swap :
      (CH.map (fun d =>
        CK.countP (fun c => !c.isEmpty && c.all (fun v => decide (v ∈ d))))).sum =
      (CK.map (fun c =>
        CH.countP (fun d => !c.isEmpty && c.all (fun v => decide (v ∈ d))))).sum := by
    calc (CH.map (fun d =>
            CK.countP (fun c => !c.isEmpty && c.all (fun v => decide (v ∈ d))))).sum
        = (CH.map (fun d => (CK.map (fun c =>
            if (!c.isEmpty && c.all (fun v => decide (v ∈ d))) then 1 else 0)).sum)).sum := by
          congr 1
          exact List.map_congr_left (fun d _ =>
            countP_eq_sum_indicator CK (fun c => !c.isEmpty && c.all (fun v => decide (v ∈ d))))
      _ = (CK.map (fun c => (CH.map (fun d =>
            if (!c.isEmpty && c.all (fun v => decide (v ∈ d))) then 1 else 0)).sum)).sum :=
          list_sum_swap CH CK _
      _ = (CK.map (fun c =>
            CH.countP (fun d => !c.isEmpty && c.all (fun v => decide (v ∈ d))))).sum := by
          congr 1
          exact List.map_congr_left (fun c _ =>
            (countP_eq_sum_indicator CH (fun d => !c.isEmpty && c.all (fun v => decide (v ∈ d)))).symm)
  have hlow : CH.length ≤
      (CH.map (fun d =>
        CK.countP (fun c => !c.isEmpty && c.all (fun v => decide (v ∈ d))))).sum := by
    rw [← hsum1 CH]
    exact List.sum_le_sum step1
  have hhigh :
      (CK.map (fun c =>
        CH.countP (fun d => !c.isEmpty && c.all (fun v => decide (v ∈ d))))).sum ≤
      CK.length := by
    rw [← hsum1 CK]
    exact List.sum_le_sum step2
  omega

end Refinement

section GirvanNewmanDefs

/-- One step of Python max(iterable, key=f): replace the running maximum
only on a strictly greater key. -/
def pyMaxStep {α β : Type} [LinearOrder β] (f : α → β) (acc : Option α) (x : α) :
    Option α :=
  match acc with
  | none => some x
  | some c => if f x > f c then some x else some c

/-- Python max(iterable, key=f): the first element attaining the maximum
key; none on an empty iterable (ValueError). -/
def pyMaxBy {α β : Type} [LinearOrder β] (l : List α) (f : α → β) : Option α :=
  l.foldl (pyMaxStep f) none

/-- Number of walks of length exactly k from s to t.  A walk whose length
equals the graph distance is a shortest path, so these counts realise the
shortest-path counts σ used by edge betweenness centrality. -/
def walkCount (G : Graph) : ℕ → String → String → ℕ
  | 0, s, t => if s = t then 1 else 0
  | k + 1, s, t =>
    (G.nodes.map (fun u => if adjB G u t then walkCount G k s u else 0)).sum

/-- Unweighted shortest-path distance: the least walk length with a
positive walk count (a shortest path visits at most |V| nodes, so
searching lengths 0..|V| is exhaustive); none when t is unreachable. -/
def distB (G : Graph) (s t : String) : Option ℕ :=
  (List.range (G.nodes.length + 1)).find? (fun k => decide (0 < walkCount G k s t))

/-- Pair dependency of the pair (s,t) on edge e: σ_st(e) / σ_st, the
fraction of shortest s-t paths crossing e, as accumulated by Brandes'
algorithm inside nx.edge_betweenness_centrality. -/
def pairDep (G : Graph) (s t : String) (e : EdgeRec) : ℚ :=
  if s = t then 0
  else
    match distB G s t with
    | none => 0
    | some d =>
      let term := fun (a b : String) =>
        match distB G s a, distB G b t with
        | some da, some db =>
          if da + 1 + db = d then (walkCount G da s a) * (walkCount G db b t) else 0
        | _, _ => 0
      ((term e.u e.v + term e.v e.u : ℕ) : ℚ) / ((walkCount G d s t : ℕ) : ℚ)

/-- The normalisation applied by nx.edge_betweenness_centrality with
normalized=True on an undirected graph: 1/(n(n-1)) over the ordered-pair
accumulation (no rescale when n <= 1). -/
def ebcScale (G : Graph) : ℚ :=
  if 1 < G.nodes.length then
    1 / ((G.nodes.length : ℚ) * ((G.nodes.length : ℚ) - 1))
  else 1

/-- nx.edge_betweenness_centrality value of edge e. -/
def edgeBetweenness (G : Graph) (e : EdgeRec) : ℚ :=
  ebcScale G *
    (G.nodes.map (fun s => (G.nodes.map (fun t => pairDep G s t e)).sum)).sum

/-- Position of a node in the node insertion order. -/
def nodeIdx (G : Graph) (x : String) : ℕ := G.nodes.indexOf x

/-- The edge iteration order of G.edges(): for each node u in insertion
order, the incident edges whose other endpoint was inserted no earlier,
in edge insertion order.  This is the dict key order of the betweenness
dictionary, hence the tie-break order of max(betw, key=betw.get). -/
def edgesNx (G : Graph) : List EdgeRec :=
  G.nodes.flatMap (fun u =>
    G.edges.filter (fun e =>
      (if nodeIdx G e.u ≤ nodeIdx G e.v then e.u else e.v) = u))

/-- nx.Graph.remove_edge: drop the record of this unordered pair, nodes
unchanged. -/
def removeEdgeRec (H : Graph) (e : EdgeRec) : Graph :=
  ⟨H.nodes, H.edges.eraseP (fun f => samePair e.u e.v f.u f.v)⟩

/-- Weighted nx degree (weight="weight"); self-loops count twice. -/
def wdeg (G : Graph) (n : String) : ℚ :=
  (G.edges.map (fun e =>
    (if e.u = n then e.weight else 0) + (if e.v = n then e.weight else 0))).sum

/-- Sum of all weighted degrees (the Σ_v deg(v) = 2m of nx modularity). -/
def wDegSum (G : Graph) : ℚ :=
  (G.nodes.map (wdeg G)).sum

/-- Total weight of edges inside community c (self-loops once). -/
def commIntW (G : Graph) (c : List String) : ℚ :=
  ((G.edges.filter (fun e => decide (e.u ∈ c) && decide (e.v ∈ c))).map
    (fun e => e.weight)).sum

/-- Sum of weighted degrees over the distinct members of c. -/
def commDegW (G : Graph) (c : List String) : ℚ :=
  (c.dedup.map (wdeg G)).sum

/-- nx is_partition check performed by nx.community.modularity: every node
lies in exactly one community and communities only contain nodes. -/
def isPartitionB (G : Graph) (comms : List (List String)) : Bool :=
  G.nodes.all (fun v => comms.countP (fun c => decide (v ∈ c)) == 1) &&
  comms.all (fun c => c.all (fun v => decide (v ∈ G.nodes)))

/-- nx.community.modularity(G, communities) with the default
weight="weight" and resolution 1: none models the NotAPartition raise and
the ZeroDivisionError when the total degree is zero. -/
def modularityW (G : Graph) (comms : List (List String)) : Option ℚ :=
  if isPartitionB G comms = false then none
  else
    let ds := wDegSum G
    if ds = 0 then none
    else
      some ((comms.map (fun c =>
        commIntW G c / (ds / 2) - commDegW G c * commDegW G c * (1 / ds ^ 2))).sum)

/-- Modularity of a partition against the bare unweighted topology (every
edge counts 1); this is nx modularity with weight=None, and it is the
quantity the spec asserts the Girvan-Newman trace records. -/
def modularityUnweighted (G : Graph) (comms : List (List String)) : Option ℚ :=
  if isPartitionB G comms = false then none
  else
    let ds : ℚ := ((G.nodes.map (degree G)).sum : ℕ)
    if ds = 0 then none
    else
      some ((comms.map (fun c =>
        ((G.edges.filter (fun e => decide (e.u ∈ c) && decide (e.v ∈ c))).length : ℚ)
            / (ds / 2)
          - ((c.dedup.map (degree G)).sum : ℚ) * ((c.dedup.map (degree G)).sum : ℚ)
            * (1 / ds ^ 2))).sum)

/-- The Girvan-Newman loop of girvan_newman_full: while H has edges,
record the component partition and its modularity against the original
graph, then remove the edge of maximum betweenness.  Returns
(completed-without-raise, partition trace, modularity trace, the caller's
graph object, the final working graph). -/
def gnLoop : ℕ → Graph → Graph → Bool × List (List (List String)) × List ℚ × Graph × Graph
  | 0, orig, H => (H.edges.isEmpty, [], [], orig, H)
  | fuel + 1, orig, H =>
    if H.edges.isEmpty then (true, [], [], orig, H)
    else
      let coms := componentsOf H
      match modularityW orig coms with
      | none => (false, [], [], orig, H)
      | some q =>
        match pyMaxBy (edgesNx H) (fun e => edgeBetweenness H e) with
        | none => (false, [], [], orig, H)
        | some e =>
          match gnLoop fuel orig (removeEdgeRec H e) with
          | (ok, pt, mt, o2, Hf) => (ok, coms :: pt, q :: mt, o2, Hf)

/-- One full run; H starts as a deep copy of G. -/
def gnRun (G : Graph) :
    Bool × List (List (List String)) × List ℚ × Graph × Graph :=
  gnLoop G.edges.length G G

def gnParts (G : Graph) : List (List (List String)) := (gnRun G).2.1

def gnTrace (G : Graph) : List ℚ := (gnRun G).2.2.1

/-- girvan_newman_full with the caller's graph object returned alongside:
best_index = max(range(len(trace)), key=trace.__getitem__) raises on an
empty trace (modelled as none), as does a failed modularity call inside
the loop. -/
def girvanNewmanFullSt (G : Graph) :
    Option (List (List String) × ℚ × List ℚ) × Graph :=
  match gnRun G with
  | (ok, pt, mt, o2, _) =>
    if ok then
      match pyMaxBy (List.range mt.length) (fun i => mt.getD i 0) with
      | some i => (some (pt.getD i [], mt.getD i 0, mt), o2)
      | none => (none, o2)
    else (none, o2)

/-- girvan_newman_full's return value: (best partition, best modularity,
modularity trace); none models an uncaught exception. -/
def girvanNewmanFull (G : Graph) : Option (List (List String) × ℚ × List ℚ) :=
  (girvanNewmanFullSt G).1

end GirvanNewmanDefs

section PyMaxLemmas

theorem pyMaxBy_mem {α β : Type} [LinearOrder β] (l : List α) (f : α → β) (x : α)
    (h : pyMaxBy l f = some x) : x ∈ l := by
  have key : ∀ (l : List α) (acc : Option α),
      l.foldl (pyMaxStep f) acc = some x → acc = some x ∨ x ∈ l := by
    intro l
    induction l with
    | nil => intro acc h; exact Or.inl h
    | cons a l ih =>
      intro acc h
      rcases ih (pyMaxStep f acc a) h with h1 | h1
      · cases acc with
        | none =>
          simp only [pyMaxStep] at h1
          exact Or.inr (by rw [← Option.some_inj.mp h1]; exact List.mem_cons_self a l)
        | some c =>
          simp only [pyMaxStep] at h1
          split at h1
          · exact Or.inr (by rw [← Option.some_inj.mp h1]; exact List.mem_cons_self a l)
          · exact Or.inl h1
      · exact Or.inr (List.mem_cons_of_mem a h1)
  rcases key l none h with h1 | h1
  · cases h1
  · exact h1

theorem pyMaxBy_isSome_of_ne_nil {α β : Type} [LinearOrder β] (l : List α)
    (f : α → β) (h : l ≠ []) : ∃ x, pyMaxBy l f = some x := by
  have key : ∀ (l : List α) (c : α),
      ∃ d, l.foldl (pyMaxStep f) (some c) = some d := by
    intro l
    induction l with
    | nil => intro c; exact ⟨c, rfl⟩
    | cons a l ih =>
      intro c
      show ∃ d, l.foldl (pyMaxStep f) (pyMaxStep f (some c) a) = some d
      simp only [pyMaxStep]
      split
      · exact ih a
      · exact ih c
  cases l with
  | nil => exact absurd rfl h
  | cons a l =>
    show ∃ d, l.foldl (pyMaxStep f) (pyMaxStep f none a) = some d
    exact key l a

theorem pyMaxBy_append_singleton {α β : Type} [LinearOrder β] (l : List α)
    (x : α) (f : α → β) :
    pyMaxBy (l ++ [x]) f = pyMaxStep f (pyMaxBy l f) x := by
  unfold pyMaxBy
  rw [List.foldl_append]
  rfl

/-- max(range(n), key=f) returns the first index attaining the maximum. -/
theorem pyMaxBy_range_spec {β : Type} [LinearOrder β] (f : ℕ → β) :
    ∀ n, 0 < n → ∃ i, pyMaxBy (List.range n) f = some i ∧ i < n ∧
      (∀ j, j < n → f j ≤ f i) ∧ (∀ j, j < i → f j < f i) := by
  intro n
  induction n with
  | zero => intro h; cases h
  | succ n ih =>
    intro _
    rcases Nat.eq_zero_or_pos n with rfl | hn
    · refine ⟨0, rfl, Nat.zero_lt_one, ?_, ?_⟩
      · intro j hj
        interval_cases j
        exact le_refl _
      · intro j hj; cases hj
    · rcases ih hn with ⟨i, heq, hi, hmax, hfirst⟩
      rw [List.range_succ, pyMaxBy_append_singleton, heq]
      simp only [pyMaxStep]
      by_cases hgt : f n > f i
      · rw [if_pos hgt]
        refine ⟨n, rfl, Nat.lt_succ_self n, ?_, ?_⟩
        · intro j hj
          rcases Nat.lt_succ_iff_lt_or_eq.mp hj with hj | rfl
          · exact (hmax j hj).trans (le_of_lt hgt)
          · exact le_refl _
        · intro j hj
          exact lt_of_le_of_lt (hmax j hj) hgt
      · rw [if_neg hgt]
        push_neg at hgt
        refine ⟨i, rfl, hi.trans (Nat.lt_succ_self n), ?_, hfirst⟩
        intro j hj
        rcases Nat.lt_succ_iff_lt_or_eq.mp hj with hj | rfl
        · exact hmax j hj
        · exact hgt

end PyMaxLemmas

section GnLoopLemmas

theorem samePair_self (a b : String) : samePair a b a b = true := by
  simp [samePair]

theorem wf_removeEdgeRec (H : Graph) (e : EdgeRec) (hwf : Wf H) :
    Wf (removeEdgeRec H e) := by
  obtain ⟨h1, h2, h3⟩ := hwf
  refine ⟨h1, ?_, h3.sublist (List.eraseP_sublist H.edges)⟩
  intro f hf
  exact h2 f ((List.eraseP_sublist H.edges).subset hf)

theorem removeEdgeRec_length (H : Graph) (e : EdgeRec) (he : e ∈ H.edges) :
    (removeEdgeRec H e).edges.length = H.edges.length - 1 :=
  List.length_eraseP_of_mem he (samePair_self e.u e.v)

theorem removeEdgeRec_subset (H : Graph) (e : EdgeRec) :
    ∀ f ∈ (removeEdgeRec H e).edges, f ∈ H.edges := by
  intro f hf
  exact (List.eraseP_sublist H.edges).subset hf

theorem mem_edgesNx_of_mem (H : Graph) (hwf : Wf H) (e : EdgeRec)
    (he : e ∈ H.edges) : e ∈ edgesNx H := by
  unfold edgesNx
  rw [List.mem_flatMap]
  refine ⟨if nodeIdx H e.u ≤ nodeIdx H e.v then e.u else e.v, ?_, ?_⟩
  · split
    · exact (hwf.2.1 e he).1
    · exact (hwf.2.1 e he).2
  · rw [List.mem_filter]
    exact ⟨he, by simp⟩

theorem edgesNx_subset (H : Graph) : ∀ e ∈ edgesNx H, e ∈ H.edges := by
  intro e he
  unfold edgesNx at he
  rw [List.mem_flatMap] at he
  rcases he with ⟨u, _, hf⟩
  exact (List.mem_filter.mp hf).1

theorem edgesNx_ne_nil (H : Graph) (hwf : Wf H) (hne : H.edges ≠ []) :
    edgesNx H ≠ [] := by
  cases h : H.edges with
  | nil => exact absurd h hne
  | cons e es =>
    have : e ∈ H.edges := by rw [h]; exact List.mem_cons_self e es
    exact List.ne_nil_of_mem (mem_edgesNx_of_mem H hwf e this)

theorem isPartitionB_componentsOf (orig H : Graph) (hwf : Wf H)
    (hn : H.nodes = orig.nodes) : isPartitionB orig (componentsOf H) = true := by
  unfold isPartitionB
  rw [Bool.and_eq_true]
  constructor
  · rw [List.all_eq_true]
    intro v hv
    have hvH : v ∈ H.nodes := hn ▸ hv
    have := componentsOf_count H hwf v hvH
    simpa using this
  · rw [List.all_eq_true]
    intro c hc
    rw [List.all_eq_true]
    intro v hv
    have := componentsOf_subsets H c hc v hv
    rw [hn] at this
    simpa using this

theorem modularityW_componentsOf_isSome (orig H : Graph) (hwf : Wf H)
    (hn : H.nodes = orig.nodes) (hds : wDegSum orig ≠ 0) :
    ∃ q, modularityW orig (componentsOf H) = some q := by
  unfold modularityW
  rw [isPartitionB_componentsOf orig H hwf hn]
  simp [hds]

/-- The caller's graph object threads through the loop unchanged: only the
working copy is mutated. -/
theorem gnLoop_orig (fuel : ℕ) (orig : Graph) :
    ∀ H, (gnLoop fuel orig H).2.2.2.1 = orig := by
  induction fuel with
  | zero => intro H; rfl
  | succ fuel ih =>
    intro H
    show (gnLoop (fuel + 1) orig H).2.2.2.1 = orig
    rw [gnLoop]
    by_cases hE : H.edges.isEmpty
    · rw [if_pos hE]
    · rw [if_neg hE]
      cases hq : modularityW orig (componentsOf H) with
      | none => simp only [hq]
      | some q =>
        cases hm : pyMaxBy (edgesNx H) (fun e => edgeBetweenness H e) with
        | none => simp only [hq, hm]
        | some e =>
          have := ih (removeEdgeRec H e)
          rcases hrec : gnLoop fuel orig (removeEdgeRec H e) with ⟨ok, pt, mt, o2, Hf⟩
          rw [hrec] at this
          simp only [hq, hm, hrec]
          exact this

theorem gnLoop_succ_eq (fuel : ℕ) (orig H : Graph)
    (hne : H.edges.isEmpty = false)
    (q : ℚ) (hq : modularityW orig (componentsOf H) = some q)
    (e : EdgeRec)
    (he : pyMaxBy (edgesNx H) (fun e => edgeBetweenness H e) = some e) :
    gnLoop (fuel + 1) orig H =
      ((gnLoop fuel orig (removeEdgeRec H e)).1,
       componentsOf H :: (gnLoop fuel orig (removeEdgeRec H e)).2.1,
       q :: (gnLoop fuel orig (removeEdgeRec H e)).2.2.1,
       (gnLoop fuel orig (removeEdgeRec H e)).2.2.2.1,
       (gnLoop fuel orig (removeEdgeRec H e)).2.2.2.2) := by
  rw [gnLoop]
  rw [hne]
  simp only [Bool.false_eq_true, if_false, hq, he]

end GnLoopLemmas

section GnLoopSpec

/-- Master specification of the Girvan-Newman loop when the total weighted
degree of the original graph is nonzero: it completes without raising and
its traces are the component partitions and modularities of a chain of
working graphs, starting at H, losing exactly one edge per step, ending
with an edgeless working graph. -/
theorem gnLoop_spec (orig : Graph) (hds : wDegSum orig ≠ 0) :
    ∀ (fuel : ℕ) (H : Graph), H.edges.length = fuel → Wf H →
      H.nodes = orig.nodes →
    ∃ (Hs : List Graph) (Hf : Graph),
      gnLoop fuel orig H =
        (true, Hs.map componentsOf,
          Hs.map (fun K => (modularityW orig (componentsOf K)).getD 0), orig, Hf) ∧
      Hs.length = fuel ∧
      (H.edges ≠ [] → Hs.getD 0 emptyGraph = H) ∧
      (∀ i, i < Hs.length →
        Wf (Hs.getD i emptyGraph) ∧
        (Hs.getD i emptyGraph).nodes = H.nodes ∧
        (Hs.getD i emptyGraph).edges.length = fuel - i) ∧
      (∀ i, i + 1 < Hs.length →
        ∀ e ∈ (Hs.getD (i + 1) emptyGraph).edges, e ∈ (Hs.getD i emptyGraph).edges) ∧
      Hf.edges = [] ∧ Hf.nodes = H.nodes := by
  intro fuel
  induction fuel with
  | zero =>
    intro H hlen hwf hn
    have hnil : H.edges = [] := List.length_eq_zero.mp hlen
    have hE : H.edges.isEmpty = true := by rw [hnil]; rfl
    refine ⟨[], H, ?_, rfl, ?_, ?_, ?_, hnil, rfl⟩
    · show gnLoop 0 orig H = _
      rw [gnLoop, hE]
      simp
    · intro h; exact absurd hnil h
    · intro i hi; cases hi
    · intro i hi; cases hi
  | succ fuel ih =>
    intro H hlen hwf hn
    have hne : H.edges ≠ [] := by
      intro h; rw [h] at hlen; cases hlen
    have hE : H.edges.isEmpty = false := by
      cases h : H.edges with
      | nil => exact absurd h hne
      | cons a l => rfl
    rcases modularityW_componentsOf_isSome orig H hwf hn hds with ⟨q, hq⟩
    rcases pyMaxBy_isSome_of_ne_nil (edgesNx H) (fun e => edgeBetweenness H e)
      (edgesNx_ne_nil H hwf hne) with ⟨e, he⟩
    have heH : e ∈ H.edges := edgesNx_subset H e (pyMaxBy_mem _ _ e he)
    set H' := removeEdgeRec H e with hH'
    have hwf' : Wf H' := wf_removeEdgeRec H e hwf
    have hn' : H'.nodes = orig.nodes := hn
    have hlen' : H'.edges.length = fuel := by
      rw [hH', removeEdgeRec_length H e heH, hlen]
      omega
    rcases ih H' hlen' hwf' hn' with
      ⟨Hs', Hf, heq', hlenHs', hhead', hidx', hchain', hfE, hfN⟩
    refine ⟨H :: Hs', Hf, ?_, ?_, ?_, ?_, ?_, hfE, ?_⟩
    · rw [gnLoop_succ_eq fuel orig H hE q hq e he, heq']
      simp only [List.map_cons]
      rw [hq]
      rfl
    · simp [hlenHs']
    · intro _; rfl
    · intro i hi
      cases i with
      | zero =>
        refine ⟨hwf, rfl, ?_⟩
        simpa using hlen
      | succ j =>
        simp only [List.getD_cons_succ]
        have hj : j < Hs'.length := by
          simp only [List.length_cons] at hi
          omega
        rcases hidx' j hj with ⟨h1, h2, h3⟩
        refine ⟨h1, ?_, ?_⟩
        · rw [h2]; rfl
        · rw [h3]; omega
    · intro i hi
      cases i with
      | zero =>
        simp only [List.getD_cons_succ, List.getD_cons_zero]
        intro f hf
        have hfuel : 0 < fuel := by
          simp only [List.length_cons] at hi
          omega
        have hne' : H'.edges ≠ [] := by
          intro hnil
          rw [hnil] at hlen'
          simp at hlen'
          omega
        have h0 : Hs'.getD 0 emptyGraph = H' := hhead' hne'
        rw [h0] at hf
        exact removeEdgeRec_subset H e f hf
      | succ j =>
        simp only [List.getD_cons_succ]
        intro f hf
        apply hchain' j ?_ f hf
        simp only [List.length_cons] at hi
        omega
    · rw [hfN]; rfl

end GnLoopSpec

section GnClaims

theorem getD_map_of_lt {α β : Type} (f : α → β) (l : List α) (i : ℕ)
    (hi : i < l.length) (d : β) (d' : α) :
    (l.map f).getD i d = f (l.getD i d') := by
  have hi' : i < (l.map f).length := by simpa using hi
  rw [List.getD_eq_getElem _ _ hi', List.getD_eq_getElem _ _ hi]
  simp

theorem getLast?_eq_getD {α : Type} (l : List α) (d : α) (h : l ≠ []) :
    l.getLast? = some (l.getD (l.length - 1) d) := by
  have hlen : 0 < l.length := List.length_pos.mpr h
  have hlt : l.length - 1 < l.length := by omega
  rw [List.getLast?_eq_getElem?, List.getD_eq_getElem _ _ hlt]
  rw [List.getElem?_eq_getElem hlt]

/-- C1 (amended): with nonzero total weighted degree, girvan_newman_full
returns (best partition, best modularity, trace); the trace has one entry
per initial edge, the best modularity is the maximum of the trace, and the
returned partition sits at the first index attaining it. -/
theorem claim_C1 (G : Graph) (hwf : Wf G) (hne : G.edges ≠ [])
    (hds : wDegSum G ≠ 0) :
    ∃ best bm i,
      girvanNewmanFull G = some (best, bm, gnTrace G) ∧
      (gnTrace G).length = G.edges.length ∧
      (gnParts G).length = G.edges.length ∧
      i < (gnTrace G).length ∧
      bm = (gnTrace G).getD i 0 ∧
      best = (gnParts G).getD i [] ∧
      (∀ j, j < (gnTrace G).length → (gnTrace G).getD j 0 ≤ bm) ∧
      (∀ j, j < i → (gnTrace G).getD j 0 < bm) := by
  obtain ⟨Hs, Hf, heq, hlenHs, hhead, hidx, hchain, hfE, hfN⟩ :=
    gnLoop_spec G hds G.edges.length G rfl hwf rfl
  have hrun : gnRun G = (true, Hs.map componentsOf,
      Hs.map (fun K => (modularityW G (componentsOf K)).getD 0), G, Hf) := heq
  have hptG : gnParts G = Hs.map componentsOf := by rw [gnParts, hrun]
  have hmtG : gnTrace G =
      Hs.map (fun K => (modularityW G (componentsOf K)).getD 0) := by
    rw [gnTrace, hrun]
  have hmlen : (gnTrace G).length = G.edges.length := by
    rw [hmtG, List.length_map, hlenHs]
  have hplen : (gnParts G).length = G.edges.length := by
    rw [hptG, List.length_map, hlenHs]
  have hpos : 0 < (gnTrace G).length := by
    rw [hmlen]
    exact List.length_pos.mpr hne
  obtain ⟨i, hmax_eq, hi, hmax, hfirst⟩ :=
    pyMaxBy_range_spec (fun j => (gnTrace G).getD j 0) (gnTrace G).length hpos
  refine ⟨(gnParts G).getD i [], (gnTrace G).getD i 0, i, ?_, hmlen, hplen, hi,
    rfl, rfl, hmax, hfirst⟩
  rw [girvanNewmanFull, girvanNewmanFullSt, hrun]
  dsimp only
  have hmt' : (Hs.map (fun K => (modularityW G (componentsOf K)).getD 0)) = gnTrace G :=
    hmtG.symm
  rw [hmt', if_pos rfl, hmax_eq]
  dsimp only
  rw [← hptG]

/-- C1, counterexample to the claim as stated: on a graph whose single edge
has weight 0, nx modularity divides by a zero total degree, the loop
raises, and no trace is returned at all. -/
theorem claim_C1_counterexample :
    0 < (buildGraphFromFile ["A,B,0.0"]).edges.length ∧
    girvanNewmanFull (buildGraphFromFile ["A,B,0.0"]) = none := by
  constructor
  · with_unfolding_all decide
  · with_unfolding_all decide

/-- C1 witness: a two-edge path with positive weights. -/
theorem claim_C1_witness :
    Wf (buildGraphFromFile ["A,B,0.9", "B,C,0.9"]) ∧
    (buildGraphFromFile ["A,B,0.9", "B,C,0.9"]).edges ≠ [] ∧
    wDegSum (buildGraphFromFile ["A,B,0.9", "B,C,0.9"]) ≠ 0 ∧
    (∃ best bm i,
      girvanNewmanFull (buildGraphFromFile ["A,B,0.9", "B,C,0.9"]) =
        some (best, bm, gnTrace (buildGraphFromFile ["A,B,0.9", "B,C,0.9"])) ∧
      (gnTrace (buildGraphFromFile ["A,B,0.9", "B,C,0.9"])).length =
        (buildGraphFromFile ["A,B,0.9", "B,C,0.9"]).edges.length ∧
      (gnParts (buildGraphFromFile ["A,B,0.9", "B,C,0.9"])).length =
        (buildGraphFromFile ["A,B,0.9", "B,C,0.9"]).edges.length ∧
      i < (gnTrace (buildGraphFromFile ["A,B,0.9", "B,C,0.9"])).length ∧
      bm = (gnTrace (buildGraphFromFile ["A,B,0.9", "B,C,0.9"])).getD i 0 ∧
      best = (gnParts (buildGraphFromFile ["A,B,0.9", "B,C,0.9"])).getD i [] ∧
      (∀ j, j < (gnTrace (buildGraphFromFile ["A,B,0.9", "B,C,0.9"])).length →
        (gnTrace (buildGraphFromFile ["A,B,0.9", "B,C,0.9"])).getD j 0 ≤ bm) ∧
      (∀ j, j < i →
        (gnTrace (buildGraphFromFile ["A,B,0.9", "B,C,0.9"])).getD j 0 < bm)) := by
  refine ⟨by decide, by decide, by with_unfolding_all decide, ?_⟩
  exact claim_C1 _ (by decide) (by decide) (by with_unfolding_all decide)

/-- C2 (amended): every recorded trace entry is the weighted nx modularity
(weight attribute = similarity score) of the recorded partition measured
against the original graph G, not the mutated working copy — but not the
unweighted-topology modularity the spec asserts. -/
theorem claim_C2 (G : Graph) (hwf : Wf G) (hds : wDegSum G ≠ 0) :
    ∀ i, i < (gnTrace G).length →
      modularityW G ((gnParts G).getD i []) = some ((gnTrace G).getD i 0) := by
  obtain ⟨Hs, Hf, heq, hlenHs, hhead, hidx, hchain, hfE, hfN⟩ :=
    gnLoop_spec G hds G.edges.length G rfl hwf rfl
  have hrun : gnRun G = (true, Hs.map componentsOf,
      Hs.map (fun K => (modularityW G (componentsOf K)).getD 0), G, Hf) := heq
  have hptG : gnParts G = Hs.map componentsOf := by rw [gnParts, hrun]
  have hmtG : gnTrace G =
      Hs.map (fun K => (modularityW G (componentsOf K)).getD 0) := by
    rw [gnTrace, hrun]
  intro i hilen
  have hiHs : i < Hs.length := by
    rw [hmtG, List.length_map] at hilen
    exact hilen
  rcases hidx i hiHs with ⟨hwfK, hnK, _⟩
  rcases modularityW_componentsOf_isSome G (Hs.getD i emptyGraph) hwfK hnK hds
    with ⟨q, hq⟩
  rw [hptG, hmtG, getD_map_of_lt _ _ _ hiHs _ emptyGraph,
    getD_map_of_lt _ _ _ hiHs _ emptyGraph, hq]
  rfl

/-- C2, counterexample to the claim as stated: on a graph with weights 1.0
and 0.1, the first recorded modularity is 20/121 (the weighted value),
whereas the modularity of the same partition against the unweighted
topology is 1/2. -/
theorem claim_C2_counterexample :
    girvanNewmanFull (buildGraphFromFile ["A,B,1.0", "C,D,0.1"]) =
      some ([["A", "B"], ["C", "D"]], 20/121, [20/121, -40/121]) ∧
    modularityUnweighted (buildGraphFromFile ["A,B,1.0", "C,D,0.1"])
      [["A", "B"], ["C", "D"]] = some (1/2) ∧
    (20 : ℚ)/121 ≠ 1/2 := by
  refine ⟨?_, ?_, by norm_num⟩
  · with_unfolding_all decide
  · with_unfolding_all decide

/-- C2 witness: the single-edge graph, index 0. -/
theorem claim_C2_witness :
    Wf (buildGraphFromFile ["A,B,0.9"]) ∧
    wDegSum (buildGraphFromFile ["A,B,0.9"]) ≠ 0 ∧
    0 < (gnTrace (buildGraphFromFile ["A,B,0.9"])).length ∧
    modularityW (buildGraphFromFile ["A,B,0.9"])
        ((gnParts (buildGraphFromFile ["A,B,0.9"])).getD 0 []) =
      some ((gnTrace (buildGraphFromFile ["A,B,0.9"])).getD 0 0) := by
  refine ⟨by decide, by with_unfolding_all decide, by with_unfolding_all decide, ?_⟩
  exact claim_C2 _ (by decide) (by with_unfolding_all decide) 0
    (by with_unfolding_all decide)

/-- C8 (confirmed): the destructive edge removals happen on the deep copy
only; the caller's graph object is returned unchanged, nodes, edges and
attributes included, whether or not the run completes. -/
theorem claim_C8 (G : Graph) : (girvanNewmanFullSt G).2 = G := by
  have h2 := gnLoop_orig G.edges.length G G
  rcases heq : gnRun G with ⟨ok, pt, mt, o2, Hf⟩
  have ho2 : o2 = G := by
    rw [gnRun] at heq
    rw [heq] at h2
    exact h2
  rw [girvanNewmanFullSt, heq]
  dsimp only
  cases ok with
  | false => simpa using ho2
  | true =>
    cases hpm : pyMaxBy (List.range mt.length) (fun i => mt.getD i 0) with
    | none => simpa using ho2
    | some i => simpa using ho2

/-- C10 (amended): with nonzero total weighted degree, the first recorded
partition is the component partition of the input, each later partition
refines the previous one, community counts never decrease, the last
recorded partition is that of a working graph with exactly one remaining
edge (so every community spans at most one edge), and after the final
removal the working graph has no edges. -/
theorem claim_C10 (G : Graph) (hwf : Wf G) (hne : G.edges ≠ [])
    (hds : wDegSum G ≠ 0) :
    (gnParts G).getD 0 [] = componentsOf G ∧
    (∀ i, i + 1 < (gnParts G).length →
      ∀ c ∈ (gnParts G).getD (i + 1) [], ∃ d ∈ (gnParts G).getD i [],
        ∀ v ∈ c, v ∈ d) ∧
    (∀ i, i + 1 < (gnParts G).length →
      ((gnParts G).getD i []).length ≤ ((gnParts G).getD (i + 1) []).length) ∧
    (∃ K, Wf K ∧ K.nodes = G.nodes ∧ K.edges.length = 1 ∧
      (gnParts G).getLast? = some (componentsOf K) ∧
      ∀ c ∈ componentsOf K,
        (K.edges.filter (fun e => decide (e.u ∈ c) && decide (e.v ∈ c))).length ≤ 1) ∧
    (gnRun G).2.2.2.2.edges = [] := by
  obtain ⟨Hs, Hf, heq, hlenHs, hhead, hidx, hchain, hfE, hfN⟩ :=
    gnLoop_spec G hds G.edges.length G rfl hwf rfl
  have hrun : gnRun G = (true, Hs.map componentsOf,
      Hs.map (fun K => (modularityW G (componentsOf K)).getD 0), G, Hf) := heq
  have hptG : gnParts G = Hs.map componentsOf := by rw [gnParts, hrun]
  have hplen : (gnParts G).length = Hs.length := by rw [hptG, List.length_map]
  have hm : 0 < G.edges.length := List.length_pos.mpr hne
  have hHs0 : 0 < Hs.length := by rw [hlenHs]; exact hm
  refine ⟨?_, ?_, ?_, ?_, ?_⟩
  · rw [hptG, getD_map_of_lt _ _ _ hHs0 _ emptyGraph, hhead hne]
  · intro i hilt
    rw [hplen] at hilt
    have hi : i < Hs.length := by omega
    rw [hptG, getD_map_of_lt _ _ _ hilt _ emptyGraph,
      getD_map_of_lt _ _ _ hi _ emptyGraph]
    rcases hidx i hi with ⟨hwfI, hnI, _⟩
    rcases hidx (i + 1) hilt with ⟨hwfI1, hnI1, _⟩
    exact components_refine (Hs.getD i emptyGraph) (Hs.getD (i + 1) emptyGraph)
      hwfI hwfI1 (hnI1.trans hnI.symm) (hchain i hilt)
  · intro i hilt
    rw [hplen] at hilt
    have hi : i < Hs.length := by omega
    rw [hptG, getD_map_of_lt _ _ _ hilt _ emptyGraph,
      getD_map_of_lt _ _ _ hi _ emptyGraph]
    rcases hidx i hi with ⟨hwfI, hnI, _⟩
    rcases hidx (i + 1) hilt with ⟨hwfI1, hnI1, _⟩
    exact components_count_le (Hs.getD i emptyGraph) (Hs.getD (i + 1) emptyGraph)
      hwfI hwfI1 (hnI1.trans hnI.symm) (hchain i hilt)
  · have hlast : Hs.length - 1 < Hs.length := by omega
    rcases hidx (Hs.length - 1) hlast with ⟨hwfL, hnL, hlenL⟩
    refine ⟨Hs.getD (Hs.length - 1) emptyGraph, hwfL, hnL, ?_, ?_, ?_⟩
    · rw [hlenL, hlenHs]; omega
    · have hne' : gnParts G ≠ [] := by
        rw [hptG]
        intro hnil
        rw [List.map_eq_nil_iff] at hnil
        rw [hnil] at hHs0
        cases hHs0
      rw [getLast?_eq_getD (gnParts G) [] hne', hplen, hptG,
        getD_map_of_lt _ _ _ hlast _ emptyGraph]
    · intro c _
      calc ((Hs.getD (Hs.length - 1) emptyGraph).edges.filter
            (fun e => decide (e.u ∈ c) && decide (e.v ∈ c))).length
          ≤ (Hs.getD (Hs.length - 1) emptyGraph).edges.length :=
            List.length_filter_le _ _
        _ ≤ 1 := by rw [hlenL, hlenHs]; omega
  · rw [gnRun, heq]
    exact hfE

/-- C10, counterexample to the claim as stated: on a two-edge graph whose
weights are all 0.0, the run raises in its first iteration, so no
partition trace is recorded at all even though the graph has edges. -/
theorem claim_C10_counterexample :
    0 < (buildGraphFromFile ["A,B,0.0", "B,C,0.0"]).edges.length ∧
    girvanNewmanFull (buildGraphFromFile ["A,B,0.0", "B,C,0.0"]) = none ∧
    gnParts (buildGraphFromFile ["A,B,0.0", "B,C,0.0"]) = [] := by
  refine ⟨by decide, ?_, ?_⟩
  · with_unfolding_all decide
  · with_unfolding_all decide

/-- C10 witness: a two-edge path with positive weights. -/
theorem claim_C10_witness :
    Wf (buildGraphFromFile ["A,X,0.8", "X,C,0.8"]) ∧
    (buildGraphFromFile ["A,X,0.8", "X,C,0.8"]).edges ≠ [] ∧
    wDegSum (buildGraphFromFile ["A,X,0.8", "X,C,0.8"]) ≠ 0 ∧
    (gnParts (buildGraphFromFile ["A,X,0.8", "X,C,0.8"])).getD 0 [] =
      componentsOf (buildGraphFromFile ["A,X,0.8", "X,C,0.8"]) := by
  refine ⟨by decide, by decide, by with_unfolding_all decide, ?_⟩
  exact (claim_C10 _ (by decide) (by decide) (by with_unfolding_all decide)).1

end GnClaims

section GreedyDefs

/-- Total weighted modularity value used to score candidate merges (same
formula as modularityW, without the partition / zero-degree error paths:
the greedy algorithm only ever evaluates it on partitions of a graph with
edges). -/
def modularityVal (G : Graph) (comms : List (List String)) : ℚ :=
  let ds := wDegSum G
  if ds = 0 then 0
  else (comms.map (fun c =>
    commIntW G c / (ds / 2) - commDegW G c * commDegW G c * (1 / ds ^ 2))).sum

/-- All ways of picking one element out of a list, paired with the rest. -/
def withoutEach {α : Type} : List α → List (α × List α)
  | [] => []
  | x :: xs => (x, xs) :: (withoutEach xs).map (fun p => (p.1, x :: p.2))

/-- All partitions obtained from parts by merging two of its communities. -/
def mergeCandidates : List (List String) → List (List (List String))
  | [] => []
  | c :: rest =>
    ((withoutEach rest).map (fun p => (c ++ p.1) :: p.2)) ++
    (mergeCandidates rest).map (fun cand => c :: cand)

/-- Modelled from the spec: one step of the external library function
greedy_modularity_communities (networkx, called with weight="weight" and
absent from src): merge the pair of communities yielding the largest
increase in global modularity; stop when no merge improves it (spec
4.3(a)). -/
def greedyStepMerge (G : Graph) (parts : List (List String)) :
    Option (List (List String)) :=
  match pyMaxBy (mergeCandidates parts)
      (fun cand => modularityVal G cand - modularityVal G parts) with
  | none => none
  | some best =>
    if modularityVal G best - modularityVal G parts > 0 then some best else none

def greedyLoop (G : Graph) : ℕ → List (List String) → List (List String)
  | 0, parts => parts
  | fuel + 1, parts =>
    match greedyStepMerge G parts with
    | none => parts
    | some p => greedyLoop G fuel p

/-- Modelled from the spec: greedy modularity maximisation, starting from
singleton communities (spec 4.3(a)); at most |V| merges can ever apply. -/
def greedyModularityCommunities (G : Graph) : List (List String) :=
  greedyLoop G G.nodes.length (G.nodes.map (fun n => [n]))

end GreedyDefs

section InfomapDefs

/-- The links fed to the external solver: each edge as (dense id of u,
dense id of v, weight). -/
def infomapLinks (G : Graph) : List (ℕ × ℕ × ℚ) :=
  G.edges.map (fun e => (nodeIdx G e.u, nodeIdx G e.v, e.weight))

/-- The node ids mentioned by a link list. -/
def linkIds (links : List (ℕ × ℕ × ℚ)) : List ℕ :=
  links.flatMap (fun l => [l.1, l.2.1])

/-- Modelled from the spec: the contract of the external Infomap solver
capability (spec 4.3(c)): it returns one (node id, module id) assignment
for exactly the node ids that were fed to it through add_link. -/
def SolverContract (modules : List (ℕ × ℕ)) (links : List (ℕ × ℕ × ℚ)) : Prop :=
  (modules.map Prod.fst).Nodup ∧
  (∀ id ∈ modules.map Prod.fst, id ∈ linkIds links) ∧
  (∀ id ∈ linkIds links, id ∈ modules.map Prod.fst)

instance (modules : List (ℕ × ℕ)) (links : List (ℕ × ℕ × ℚ)) :
    Decidable (SolverContract modules links) := by
  unfold SolverContract; infer_instance

/-- communities_dict.setdefault(module_id, set()).add(node): append the
node to the module's set, creating the module on first sight (dict
insertion order). -/
def insertModule (acc : List (ℕ × List String)) (mid : ℕ) (node : String) :
    List (ℕ × List String) :=
  if acc.any (fun p => p.1 == mid) then
    acc.map (fun p => if p.1 == mid then (p.1, p.2 ++ [node]) else p)
  else acc ++ [(mid, [node])]

/-- infomap_partition with the external solver injected: feed each edge as
a weighted link over dense node ids, then invert the returned module
assignment back to sets of node names.  (The id lookup cannot miss when
the solver honours its contract.) -/
def infomapPartition (solver : List (ℕ × ℕ × ℚ) → List (ℕ × ℕ) × ℚ)
    (G : Graph) : List (List String) × ℚ :=
  let res := solver (infomapLinks G)
  let communities := (res.1.foldl (fun acc p =>
    match G.nodes[p.1]? with
    | some node => insertModule acc p.2 node
    | none => acc) []).map Prod.snd
  (communities, res.2)

end InfomapDefs

section PartitionCounting

theorem countP_eq_zero_of_count_sum_zero (l : List (List String)) (v : String)
    (h : (l.map (fun c => c.count v)).sum = 0) :
    l.countP (fun c => decide (v ∈ c)) = 0 := by
  induction l with
  | nil => rfl
  | cons c l ih =>
    simp only [List.map_cons, List.sum_cons] at h
    have hc : c.count v = 0 := by omega
    have hl : (l.map (fun c => c.count v)).sum = 0 := by omega
    rw [List.countP_cons]
    have hvc : v ∉ c := by
      intro hm
      have := List.count_pos_iff.mpr hm
      omega
    simp [hvc, ih hl]

theorem countP_eq_one_of_count_sum_one (l : List (List String)) (v : String)
    (h : (l.map (fun c => c.count v)).sum = 1) :
    l.countP (fun c => decide (v ∈ c)) = 1 := by
  induction l with
  | nil => cases h
  | cons c l ih =>
    simp only [List.map_cons, List.sum_cons] at h
    rw [List.countP_cons]
    by_cases hc : c.count v = 0
    · have hvc : v ∉ c := by
        intro hm
        have := List.count_pos_iff.mpr hm
        omega
      have hl : (l.map (fun c => c.count v)).sum = 1 := by omega
      simp [hvc, ih hl]
    · have hl : (l.map (fun c => c.count v)).sum = 0 := by omega
      have hvc : v ∈ c := by
        rcases Nat.eq_zero_or_pos (c.count v) with h0 | h0
        · exact absurd h0 hc
        · exact List.count_pos_iff.mp h0
      rw [countP_eq_zero_of_count_sum_zero l v hl]
      simp [hvc]

end PartitionCounting

section GreedyLemmas

theorem withoutEach_perm {α : Type} :
    ∀ (l : List α), ∀ p ∈ withoutEach l, List.Perm (p.1 :: p.2) l := by
  intro l
  induction l with
  | nil => intro p hp; cases hp
  | cons x xs ih =>
    intro p hp
    rcases List.mem_cons.mp hp with rfl | hp'
    · exact List.Perm.refl _
    · rcases List.mem_map.mp hp' with ⟨q, hq, rfl⟩
      have := ih q hq
      exact (List.Perm.swap x q.1 q.2).trans (List.Perm.cons x this)

theorem mergeCandidates_flatten_perm :
    ∀ (parts : List (List String)) (cand : List (List String)),
      cand ∈ mergeCandidates parts → List.Perm cand.flatten parts.flatten := by
  intro parts
  induction parts with
  | nil => intro cand h; cases h
  | cons c rest ih =>
    intro cand h
    rcases List.mem_append.mp h with h1 | h1
    · rcases List.mem_map.mp h1 with ⟨p, hp, rfl⟩
      have hperm := withoutEach_perm rest p hp
      show List.Perm ((c ++ p.1) :: p.2).flatten (c :: rest).flatten
      simp only [List.flatten_cons]
      rw [List.append_assoc]
      apply List.Perm.append_left c
      have h2 : List.Perm (p.1 :: p.2).flatten rest.flatten := hperm.flatten
      simpa using h2
    · rcases List.mem_map.mp h1 with ⟨cand', hc, rfl⟩
      simp only [List.flatten_cons]
      exact List.Perm.append_left c (ih cand' hc)

theorem greedyLoop_flatten_perm (G : Graph) :
    ∀ (fuel : ℕ) (parts : List (List String)),
      List.Perm (greedyLoop G fuel parts).flatten parts.flatten := by
  intro fuel
  induction fuel with
  | zero => intro parts; exact List.Perm.refl _
  | succ fuel ih =>
    intro parts
    show List.Perm (match greedyStepMerge G parts with
      | none => parts
      | some p => greedyLoop G fuel p).flatten parts.flatten
    cases hstep : greedyStepMerge G parts with
    | none => exact List.Perm.refl _
    | some p =>
      have hmem : p ∈ mergeCandidates parts := by
        unfold greedyStepMerge at hstep
        cases hmax : pyMaxBy (mergeCandidates parts)
            (fun cand => modularityVal G cand - modularityVal G parts) with
        | none => rw [hmax] at hstep; cases hstep
        | some best =>
          rw [hmax] at hstep
          dsimp only at hstep
          by_cases hcond : modularityVal G best - modularityVal G parts > 0
          · rw [if_pos hcond] at hstep
            cases hstep
            exact pyMaxBy_mem _ _ _ hmax
          · rw [if_neg hcond] at hstep
            cases hstep
      exact (ih p).trans (mergeCandidates_flatten_perm parts p hmem)

theorem singletons_flatten (l : List String) :
    (l.map (fun n => [n])).flatten = l := by
  induction l with
  | nil => rfl
  | cons x xs ih => simp [ih]

theorem greedy_flatten_perm (G : Graph) :
    List.Perm (greedyModularityCommunities G).flatten G.nodes := by
  have h := greedyLoop_flatten_perm G G.nodes.length (G.nodes.map (fun n => [n]))
  rw [singletons_flatten] at h
  exact h

theorem greedy_partition (G : Graph) (hwf : Wf G) (v : String) (hv : v ∈ G.nodes) :
    (greedyModularityCommunities G).countP (fun c => decide (v ∈ c)) = 1 := by
  have hperm := greedy_flatten_perm G
  have hcount : (greedyModularityCommunities G).flatten.count v = 1 := by
    rw [hperm.count_eq]
    exact List.count_eq_one_of_mem hwf.1 hv
  rw [List.count_flatten] at hcount
  exact countP_eq_one_of_count_sum_one _ v hcount

end GreedyLemmas

section InfomapLemmas

theorem insertModule_keys (acc : List (ℕ × List String)) (mid : ℕ) (node : String) :
    (insertModule acc mid node).map Prod.fst =
      if acc.any (fun p => p.1 == mid) then acc.map Prod.fst
      else acc.map Prod.fst ++ [mid] := by
  unfold insertModule
  split
  · rw [List.map_map]
    apply List.map_congr_left
    intro p _
    simp only [Function.comp_apply]
    split <;> rfl
  · rw [List.map_append]
    rfl

theorem insertModule_keys_nodup (acc : List (ℕ × List String)) (mid : ℕ)
    (node : String) (h : (acc.map Prod.fst).Nodup) :
    ((insertModule acc mid node).map Prod.fst).Nodup := by
  rw [insertModule_keys]
  split
  · exact h
  · rename_i hany
    rw [List.nodup_append]
    refine ⟨h, List.nodup_singleton mid, ?_⟩
    intro x hx
    simp only [List.mem_singleton]
    intro hxm
    subst hxm
    rcases List.mem_map.mp hx with ⟨p, hp, hfst⟩
    exact hany (List.any_eq_true.mpr ⟨p, hp, by simp [hfst]⟩)

theorem insertModule_count (mid : ℕ) (node v : String) :
    ∀ (acc : List (ℕ × List String)), ((acc.map Prod.fst).Nodup) →
    ((insertModule acc mid node).map (fun p => p.2.count v)).sum =
      (acc.map (fun p => p.2.count v)).sum + (if node = v then 1 else 0) := by
  intro acc
  induction acc with
  | nil =>
    intro _
    show ([(mid, [node])].map (fun p => p.2.count v)).sum = _
    simp only [List.map_cons, List.map_nil, List.sum_cons, List.sum_nil,
      List.count_singleton, List.map_nil, Nat.add_zero, Nat.zero_add]
    by_cases h : node = v
    · rw [if_pos h, if_pos (by simp [h])]
    · rw [if_neg h, if_neg (by simp only [beq_iff_eq]; exact fun hc => h hc)]
  | cons p acc ih =>
    intro hnodup
    have hnodup' : (acc.map Prod.fst).Nodup := by
      simp only [List.map_cons, List.nodup_cons] at hnodup
      exact hnodup.2
    by_cases hp : p.1 = mid
    · have hany : (p :: acc).any (fun q => q.1 == mid) = true :=
        List.any_eq_true.mpr ⟨p, List.mem_cons_self p acc, by simp [hp]⟩
      have hnotin : ∀ q ∈ acc, (q.1 == mid) = false := by
        intro q hq
        simp only [List.map_cons, List.nodup_cons] at hnodup
        simp only [beq_eq_false_iff_ne, ne_eq]
        intro hqm
        exact hnodup.1 (List.mem_map.mpr ⟨q, hq, by rw [hqm, hp]⟩)
      unfold insertModule
      rw [if_pos hany]
      have hmapacc : acc.map (fun q => if q.1 == mid then (q.1, q.2 ++ [node]) else q)
          = acc := by
        have : acc.map (fun q => if q.1 == mid then (q.1, q.2 ++ [node]) else q)
            = acc.map id := by
          apply List.map_congr_left
          intro q hq
          rw [hnotin q hq]
          rfl
        rw [this, List.map_id]
      simp only [List.map_cons, List.sum_cons]
      rw [hmapacc]
      have hfirst : ((if p.1 == mid then (p.1, p.2 ++ [node]) else p) : ℕ × List String).2
          = p.2 ++ [node] := by
        rw [if_pos (by simp [hp])]
      rw [hfirst, List.count_append]
      have : ([node].count v) = if node = v then 1 else 0 := by
        rw [List.count_singleton]
        by_cases h : node = v
        · rw [if_pos (by simp [h]), if_pos h]
        · rw [if_neg (by simp only [beq_iff_eq]; exact fun hc => h hc), if_neg h]
      rw [this]
      omega
    · have hcons : (p :: acc).any (fun q => q.1 == mid) = acc.any (fun q => q.1 == mid) := by
        simp only [List.any_cons]
        rw [show (p.1 == mid) = false by simp [hp]]
        rfl
      by_cases hany : acc.any (fun q => q.1 == mid) = true
      · unfold insertModule
        rw [if_pos (by rw [hcons]; exact hany)]
        have hIH := ih hnodup'
        unfold insertModule at hIH
        rw [if_pos hany] at hIH
        simp only [List.map_cons, List.sum_cons]
        rw [show (if p.1 == mid then (p.1, p.2 ++ [node]) else p) = p by
          rw [if_neg (by simp [hp])]]
        omega
      · unfold insertModule
        rw [if_neg (by rw [hcons]; exact hany)]
        have hIH := ih hnodup'
        unfold insertModule at hIH
        rw [if_neg hany] at hIH
        have : (p :: acc) ++ [(mid, [node])] = p :: (acc ++ [(mid, [node])]) := rfl
        rw [this]
        simp only [List.map_cons, List.sum_cons]
        omega

theorem foldModules_count (G : Graph) (v : String) :
    ∀ (ms : List (ℕ × ℕ)) (acc : List (ℕ × List String)),
      (acc.map Prod.fst).Nodup →
      ((ms.foldl (fun acc p =>
          match G.nodes[p.1]? with
          | some node => insertModule acc p.2 node
          | none => acc) acc).map (fun p => p.2.count v)).sum =
        (acc.map (fun p => p.2.count v)).sum +
          ms.countP (fun p => G.nodes[p.1]? == some v) := by
  intro ms
  induction ms with
  | nil => intro acc _; simp
  | cons m ms ih =>
    intro acc hnodup
    simp only [List.foldl_cons, List.countP_cons]
    cases hm : G.nodes[m.1]? with
    | none =>
      simp only [hm]
      rw [ih acc hnodup]
      simp
    | some node =>
      simp only [hm]
      rw [ih _ (insertModule_keys_nodup _ _ _ hnodup)]
      rw [insertModule_count m.2 node v acc hnodup]
      by_cases hnv : node = v
      · subst hnv
        simp only [beq_self_eq_true, if_pos rfl, if_true]
        omega
      · rw [if_neg hnv]
        have hfalse : ((some node == some v) : Bool) = false := by
          simp [hnv]
        rw [hfalse]
        simp

theorem getElem?_eq_some_iff_indexOf (l : List String) (hnodup : l.Nodup)
    (v : String) (hv : v ∈ l) :
    ∀ n, l[n]? = some v ↔ n = l.indexOf v := by
  intro n
  constructor
  · intro h
    rcases List.getElem?_eq_some_iff.mp h with ⟨hlt, hget⟩
    have hidx : l.indexOf v < l.length := List.indexOf_lt_length.mpr hv
    have hgi : l[l.indexOf v] = v := List.getElem_indexOf hidx
    exact (List.Nodup.getElem_inj_iff hnodup).mp (by rw [hget, hgi])
  · rintro rfl
    have hidx := List.indexOf_lt_length.mpr hv
    rw [List.getElem?_eq_getElem hidx, List.getElem_indexOf hidx]

theorem countP_modules (modules : List (ℕ × ℕ)) (G : Graph) (hwf : Wf G)
    (v : String) (hv : v ∈ G.nodes)
    (hcontract : SolverContract modules (infomapLinks G)) :
    modules.countP (fun p => G.nodes[p.1]? == some v) =
      if G.edges.any (fun e => e.u = v || e.v = v) then 1 else 0 := by
  obtain ⟨hnd, hsub, hsup⟩ := hcontract
  have hchar : ∀ p : ℕ × ℕ,
      (G.nodes[p.1]? == some v) = (p.1 == G.nodes.indexOf v) := by
    intro p
    by_cases h : p.1 = G.nodes.indexOf v
    · rw [(getElem?_eq_some_iff_indexOf G.nodes hwf.1 v hv p.1).mpr h]
      simp [h]
    · have hne : G.nodes[p.1]? ≠ some v := by
        intro hc
        exact h ((getElem?_eq_some_iff_indexOf G.nodes hwf.1 v hv p.1).mp hc)
      simp [hne, h]
  have hcount1 : modules.countP (fun p => G.nodes[p.1]? == some v) =
      (modules.map Prod.fst).count (G.nodes.indexOf v) := by
    rw [List.count, List.countP_map]
    apply List.countP_congr
    intro p _
    rw [hchar p]
    rfl
  have hlink : G.nodes.indexOf v ∈ linkIds (infomapLinks G) ↔
      G.edges.any (fun e => e.u = v || e.v = v) = true := by
    unfold linkIds infomapLinks
    rw [List.any_eq_true]
    constructor
    · intro h
      rcases List.mem_flatMap.mp h with ⟨l, hl, hm⟩
      rcases List.mem_map.mp hl with ⟨e, he, rfl⟩
      simp only [nodeIdx, List.mem_cons, List.mem_singleton] at hm
      rcases hm with hm | hm
      · have := (List.indexOf_inj hv (hwf.2.1 e he).1).mp hm
        exact ⟨e, he, by simp [this]⟩
      · rcases hm with hm | hm
        · have := (List.indexOf_inj hv (hwf.2.1 e he).2).mp hm
          exact ⟨e, he, by simp [this]⟩
        · cases hm
    · rintro ⟨e, he, hev⟩
      refine List.mem_flatMap.mpr ⟨(nodeIdx G e.u, nodeIdx G e.v, e.weight), ?_, ?_⟩
      · exact List.mem_map.mpr ⟨e, he, rfl⟩
      · simp only [Bool.or_eq_true, decide_eq_true_eq] at hev
        rcases hev with rfl | rfl
        · exact List.mem_cons_self _ _
        · exact List.mem_cons_of_mem _ (List.mem_cons_self _ _)
  rw [hcount1]
  by_cases hmem : G.nodes.indexOf v ∈ modules.map Prod.fst
  · rw [List.count_eq_one_of_mem hnd hmem]
    rw [if_pos (hlink.mp (hsub _ hmem))]
  · rw [List.count_eq_zero_of_not_mem hmem]
    have : ¬(G.edges.any (fun e => e.u = v || e.v = v) = true) := by
      intro hc
      exact hmem (hsup _ (hlink.mpr hc))
    rw [if_neg this]

end InfomapLemmas

section ClaimC4

/-- Shared derivation: a successful girvan_newman_full run returns, as the
best partition, the component partition of one of the working graphs. -/
theorem girvanNewman_best (G : Graph) (hwf : Wf G) (hne : G.edges ≠ [])
    (hds : wDegSum G ≠ 0) :
    ∃ i K, girvanNewmanFull G =
        some ((gnParts G).getD i [], (gnTrace G).getD i 0, gnTrace G) ∧
      i < (gnParts G).length ∧ Wf K ∧ K.nodes = G.nodes ∧
      (gnParts G).getD i [] = componentsOf K := by
  obtain ⟨Hs, Hf, heq, hlenHs, hhead, hidx, hchain, hfE, hfN⟩ :=
    gnLoop_spec G hds G.edges.length G rfl hwf rfl
  have hrun : gnRun G = (true, Hs.map componentsOf,
      Hs.map (fun K => (modularityW G (componentsOf K)).getD 0), G, Hf) := heq
  have hptG : gnParts G = Hs.map componentsOf := by rw [gnParts, hrun]
  have hmtG : gnTrace G =
      Hs.map (fun K => (modularityW G (componentsOf K)).getD 0) := by
    rw [gnTrace, hrun]
  have hpos : 0 < (gnTrace G).length := by
    rw [hmtG, List.length_map, hlenHs]
    exact List.length_pos.mpr hne
  obtain ⟨i, hmax_eq, hi, hmax, hfirst⟩ :=
    pyMaxBy_range_spec (fun j => (gnTrace G).getD j 0) (gnTrace G).length hpos
  have hiHs : i < Hs.length := by
    rw [hmtG, List.length_map] at hi
    exact hi
  rcases hidx i hiHs with ⟨hwfK, hnK, _⟩
  refine ⟨i, Hs.getD i emptyGraph, ?_, ?_, hwfK, hnK, ?_⟩
  · rw [girvanNewmanFull, girvanNewmanFullSt, hrun]
    dsimp only
    have hmt' : (Hs.map (fun K => (modularityW G (componentsOf K)).getD 0)) =
        gnTrace G := hmtG.symm
    rw [hmt', if_pos rfl, hmax_eq]
    dsimp only
    rw [← hptG]
  · rw [hptG, List.length_map]
    exact hiHs
  · rw [hptG, getD_map_of_lt _ _ _ hiHs _ emptyGraph]

/-- C4 (amended): greedy modularity and (successful) Girvan-Newman return
true partitions — every node of the graph in exactly one community; the
infomap wrapper covers each node incident to an edge exactly once but
drops isolated nodes entirely (they are never fed to the solver). -/
theorem claim_C4 :
    (∀ G : Graph, Wf G → ∀ v ∈ G.nodes,
      (greedyModularityCommunities G).countP (fun c => decide (v ∈ c)) = 1) ∧
    (∀ G : Graph, Wf G → G.edges ≠ [] → wDegSum G ≠ 0 →
      ∃ best bm, girvanNewmanFull G = some (best, bm, gnTrace G) ∧
        ∀ v ∈ G.nodes, best.countP (fun c => decide (v ∈ c)) = 1) ∧
    (∀ (solver : List (ℕ × ℕ × ℚ) → List (ℕ × ℕ) × ℚ) (G : Graph), Wf G →
      SolverContract (solver (infomapLinks G)).1 (infomapLinks G) →
      ∀ v ∈ G.nodes,
        (infomapPartition solver G).1.countP (fun c => decide (v ∈ c)) =
          if G.edges.any (fun e => e.u = v || e.v = v) then 1 else 0) := by
  refine ⟨?_, ?_, ?_⟩
  · intro G hwf v hv
    exact greedy_partition G hwf v hv
  · intro G hwf hne hds
    obtain ⟨i, K, hfull, hilen, hwfK, hnK, hbest⟩ :=
      girvanNewman_best G hwf hne hds
    refine ⟨(gnParts G).getD i [], (gnTrace G).getD i 0, hfull, ?_⟩
    intro v hv
    rw [hbest]
    exact componentsOf_count K hwfK v (by rw [hnK]; exact hv)
  · intro solver G hwf hcontract v hv
    have hfold := foldModules_count G v (solver (infomapLinks G)).1 [] (by simp)
    have hcp := countP_modules (solver (infomapLinks G)).1 G hwf v hv hcontract
    have hcomm : (infomapPartition solver G).1.map (fun c => c.count v) =
        ((solver (infomapLinks G)).1.foldl (fun acc p =>
          match G.nodes[p.1]? with
          | some node => insertModule acc p.2 node
          | none => acc) []).map (fun p => p.2.count v) := by
      unfold infomapPartition
      dsimp only
      rw [List.map_map]
      rfl
    have hsum : ((infomapPartition solver G).1.map (fun c => c.count v)).sum =
        if G.edges.any (fun e => e.u = v || e.v = v) then 1 else 0 := by
      rw [hcomm, hfold, hcp]
      simp
    by_cases hinc : G.edges.any (fun e => e.u = v || e.v = v) = true
    · rw [if_pos hinc]
      rw [if_pos hinc] at hsum
      exact countP_eq_one_of_count_sum_one _ v hsum
    · rw [if_neg hinc]
      rw [if_neg hinc] at hsum
      exact countP_eq_zero_of_count_sum_zero _ v hsum

/-- A graph with an isolated node A next to an edge B-C: a legitimate
nx.Graph state (add_node exists), satisfying the graph invariant. -/
def isoGraph : Graph := ⟨["A", "B", "C"], [⟨"B", "C", 9/10, 9/10, 1/10⟩]⟩

/-- A contract-abiding stand-in for the Infomap solver: assign every fed
node id to module 0 (its actual behaviour on a single-link network). -/
def solver0 : List (ℕ × ℕ × ℚ) → List (ℕ × ℕ) × ℚ :=
  fun links => ((linkIds links).dedup.map (fun id => (id, 0)), 0)

/-- C4, counterexample to the claim as stated: the infomap wrapper never
feeds the isolated node A to the solver, so A appears in no community of
the returned partition — completeness fails. -/
theorem claim_C4_counterexample :
    Wf isoGraph ∧
    SolverContract (solver0 (infomapLinks isoGraph)).1 (infomapLinks isoGraph) ∧
    "A" ∈ isoGraph.nodes ∧
    (infomapPartition solver0 isoGraph).1.countP (fun c => decide ("A" ∈ c)) = 0 ∧
    (infomapPartition solver0 isoGraph).1 = [["B", "C"]] := by
  refine ⟨by decide, by decide, by decide, by decide, by decide⟩

/-- C4 witness: the single-edge graph, for all three algorithms. -/
theorem claim_C4_witness :
    Wf (buildGraphFromFile ["A,B,0.9"]) ∧
    (greedyModularityCommunities (buildGraphFromFile ["A,B,0.9"])).countP
      (fun c => decide ("A" ∈ c)) = 1 ∧
    (infomapPartition solver0 (buildGraphFromFile ["A,B,0.9"])).1.countP
      (fun c => decide ("A" ∈ c)) =
      (if (buildGraphFromFile ["A,B,0.9"]).edges.any
        (fun e => e.u = "A" || e.v = "A") then 1 else 0) ∧
    (∃ best bm,
      girvanNewmanFull (buildGraphFromFile ["A,B,0.9"]) =
        some (best, bm, gnTrace (buildGraphFromFile ["A,B,0.9"])) ∧
      ∀ v ∈ (buildGraphFromFile ["A,B,0.9"]).nodes,
        best.countP (fun c => decide (v ∈ c)) = 1) := by
  have hwf : Wf (buildGraphFromFile ["A,B,0.9"]) := by decide
  refine ⟨hwf, claim_C4.1 _ hwf "A" (by decide),
    claim_C4.2.2 solver0 _ hwf (by decide) "A" (by decide),
    claim_C4.2.1 _ hwf (by decide) (by with_unfolding_all decide)⟩

end ClaimC4

section MetricsDefs

/-- clustering_red.conductance_report: mean = sum/len raises
ZeroDivisionError and min()/max() raise ValueError on an empty community
list (modelled as none); otherwise the per-community list with
mean/min/max. -/
def conductanceReport (G : Graph) (communities : List (List String)) :
    Option (List ℚ × ℚ × ℚ × ℚ) :=
  match communities.map (conductance G) with
  | [] => none
  | v :: vs =>
    some (v :: vs, (v :: vs).sum / (((v :: vs).length : ℕ) : ℚ),
      vs.foldl min v, vs.foldl max v)

/-- Python round(x, n): round half to even at the n-th decimal. -/
def roundHalfEven (q : ℚ) : ℤ :=
  let f := ⌊q⌋
  let frac := q - f
  if frac < 1/2 then f
  else if frac > 1/2 then f + 1
  else if f % 2 = 0 then f else f + 1

def pyRound (ndigits : ℕ) (q : ℚ) : ℚ :=
  (roundHalfEven (q * 10 ^ ndigits) : ℚ) / 10 ^ ndigits

/-- nx.density: 2m/(n(n-1)) for undirected graphs, 0 when m = 0 or
n <= 1. -/
def nxDensity (G : Graph) : ℚ :=
  if G.edges.length = 0 ∨ G.nodes.length ≤ 1 then 0
  else 2 * (G.edges.length : ℚ) /
    ((G.nodes.length : ℚ) * ((G.nodes.length : ℚ) - 1))

/-- Neighbours of u other than u itself (nx clustering ignores
self-loops). -/
def nbrSet (G : Graph) (u : String) : List String :=
  ((G.edges.filterMap (fun e =>
    if e.u = u then some e.v else if e.v = u then some e.u else none)).dedup).filter
    (fun v => v ≠ u)

def pairsOf {α : Type} : List α → List (α × α)
  | [] => []
  | x :: xs => xs.map (fun y => (x, y)) ++ pairsOf xs

/-- nx local clustering coefficient (unweighted): fraction of connected
neighbour pairs, 0 for degree < 2. -/
def localClustering (G : Graph) (u : String) : ℚ :=
  let ns := nbrSet G u
  let k := ns.length
  if k < 2 then 0
  else 2 * (((pairsOf ns).filter (fun pr => adjB G pr.1 pr.2)).length : ℚ)
    / ((k : ℚ) * ((k : ℚ) - 1))

/-- nx.average_clustering (only evaluated on graphs with nodes). -/
def avgClustering (G : Graph) : ℚ :=
  ((G.nodes.map (localClustering G)).sum) / (G.nodes.length : ℚ)

/-- G.subgraph(c).copy(): the induced subgraph on the node set c. -/
def inducedSubgraph (G : Graph) (c : List String) : Graph :=
  ⟨G.nodes.filter (fun v => decide (v ∈ c)),
   G.edges.filter (fun e => decide (e.u ∈ c) && decide (e.v ∈ c))⟩

def allDistList (H : Graph) : List (Option ℕ) :=
  H.nodes.flatMap (fun s => H.nodes.map (fun t => distB H s t))

/-- nx.diameter: the largest pairwise distance; raises (none) when some
pair is unreachable. -/
def diameterOf (H : Graph) : Option ℕ :=
  if (allDistList H).all Option.isSome then
    some (((allDistList H).filterMap id).foldr max 0)
  else none

/-- nx.average_shortest_path_length: sum of ordered-pair distances over
n(n-1); raises (none) when the graph is disconnected. -/
def avgSPL (H : Graph) : Option ℚ :=
  if (allDistList H).all Option.isSome then
    some (((((allDistList H).filterMap id).map (fun k => (k : ℚ)))).sum /
      ((H.nodes.length : ℚ) * ((H.nodes.length : ℚ) - 1)))
  else none

/-- The giant-component fields of scripts/analizar_topologia_red.py
(lines 80-91): diameter and rounded mean path length of the first largest
component when it has more than one node, None otherwise. -/
def gcFieldsScripts (G : Graph) : Option ℕ × Option ℚ :=
  match pyMaxBy (componentsOf G) (fun c => c.length) with
  | none => (none, none)
  | some largest =>
    let GC := inducedSubgraph G largest
    if 1 < GC.nodes.length then (diameterOf GC, (avgSPL GC).map (pyRound 3))
    else (none, none)

/-- The same fields in the root analizar_topologia_red.py (lines 80-90),
whose trivial-component branch returns 0 and 0.0 instead of None. -/
def gcFieldsRoot (G : Graph) : Option ℕ × Option ℚ :=
  match pyMaxBy (componentsOf G) (fun c => c.length) with
  | none => (none, none)
  | some largest =>
    let GC := inducedSubgraph G largest
    if 1 < GC.nodes.length then (diameterOf GC, (avgSPL GC).map (pyRound 3))
    else (some 0, some 0)

/-- The JSON record produced by _calcular_metricas_globales. -/
structure Metricas where
  n_nodos : ℕ
  n_aristas : ℕ
  grado_medio : ℚ
  densidad : ℚ
  n_componentes : ℕ
  coef_agrupamiento_medio : ℚ
  diametro_gc : Option ℕ
  longitud_camino_media_gc : Option ℚ
  n_comunidades : ℕ
  tamano_medio_comunidad : ℚ
  modularidad_preliminar : Option ℚ
deriving DecidableEq

def zeroMetricas : Metricas :=
  ⟨0, 0, 0, 0, 0, 0, none, none, 0, 0, none⟩

/-- _calcular_metricas_globales, parameterised over the giant-component
field variant and the external louvain_communities capability (none
models the ImportError fallback to connected components). -/
def calcularMetricasGlobales (gcF : Graph → Option ℕ × Option ℚ)
    (louvain : Option (Graph → List (List String))) (G : Graph) :
    Option Metricas :=
  let n := G.nodes.length
  let m := G.edges.length
  if n = 0 then some zeroMetricas
  else
    let grado_medio := pyRound 3 ((((G.nodes.map (degree G)).sum : ℕ) : ℚ) / (n : ℚ))
    let densidad := pyRound 4 (nxDensity G)
    let ncomp := (componentsOf G).length
    let coef := pyRound 4 (avgClustering G)
    let gc := gcF G
    let finish := fun (cs : List (List String)) (md : Option ℚ) =>
      if cs.length = 0 then none
      else
        some ⟨n, m, grado_medio, densidad, ncomp, coef, gc.1, gc.2, cs.length,
          pyRound 2 (((cs.map List.length).sum : ℚ) / (cs.length : ℚ)), md⟩
    match louvain with
    | some lv =>
      let cs := lv G
      if 0 < m then
        match modularityW G cs with
        | none => none
        | some q => finish cs (some q)
      else finish cs none
    | none => finish (componentsOf G) none

def metricasScripts (louvain : Option (Graph → List (List String)))
    (G : Graph) : Option Metricas :=
  calcularMetricasGlobales gcFieldsScripts louvain G

def metricasRoot (louvain : Option (Graph → List (List String)))
    (G : Graph) : Option Metricas :=
  calcularMetricasGlobales gcFieldsRoot louvain G

end MetricsDefs

section ClaimC3

theorem girvanNewmanFull_no_edges (G : Graph) (h : G.edges = []) :
    girvanNewmanFull G = none := by
  have h0 : G.edges.length = 0 := by rw [h]; rfl
  rw [girvanNewmanFull, girvanNewmanFullSt, gnRun, h0, gnLoop]
  have hE : G.edges.isEmpty = true := by rw [h]; rfl
  rw [hE]
  rfl

/-- C3 (amended): the topology analyzer returns the all-zero/None record
on an empty graph without raising (both source variants); but on any
edgeless graph girvan_newman_full raises (max of an empty trace), and
conductance_report raises on an empty partition. -/
theorem claim_C3 :
    (∀ louvain, metricasScripts louvain emptyGraph = some zeroMetricas ∧
      metricasRoot louvain emptyGraph = some zeroMetricas) ∧
    (∀ G : Graph, G.edges = [] → girvanNewmanFull G = none) ∧
    (∀ G : Graph, conductanceReport G [] = none) := by
  refine ⟨?_, girvanNewmanFull_no_edges, ?_⟩
  · intro louvain
    exact ⟨rfl, rfl⟩
  · intro G
    rfl

/-- C3, counterexample to the claim as stated: girvan_newman_full and
conductance_report raise on degenerate inputs instead of returning a
zero/null record. -/
theorem claim_C3_counterexample :
    girvanNewmanFull emptyGraph = none ∧
    conductanceReport emptyGraph [] = none := by
  exact ⟨rfl, rfl⟩

/-- C3 witness: a concrete louvain capability and an edgeless one-node
graph. -/
theorem claim_C3_witness :
    metricasScripts (some (fun _ => [])) emptyGraph = some zeroMetricas ∧
    girvanNewmanFull (Graph.mk ["A"] []) = none ∧
    conductanceReport (Graph.mk ["A"] []) [] = none := by
  exact ⟨(claim_C3.1 (some (fun _ => []))).1,
    claim_C3.2.1 (Graph.mk ["A"] []) rfl,
    claim_C3.2.2 (Graph.mk ["A"] [])⟩

end ClaimC3

section GiantComponentLemmas

theorem le_sum_map_of_mem {α : Type} (l : List α) (f : α → ℕ) (a : α)
    (ha : a ∈ l) : f a ≤ (l.map f).sum := by
  induction l with
  | nil => cases ha
  | cons x xs ih =>
    rcases List.mem_cons.mp ha with rfl | ha'
    · simp only [List.map_cons, List.sum_cons]
      omega
    · simp only [List.map_cons, List.sum_cons]
      have := ih ha'
      omega

theorem iterate_subset_nodes (G : Graph) (x : String) (hwf : Wf G)
    (hx : x ∈ G.nodes) : ∀ k, (adjStep G)^[k] {x} ⊆ G.nodes.toFinset := by
  intro k
  induction k with
  | zero => simpa using List.mem_toFinset.mpr hx
  | succ k ih =>
    rw [Function.iterate_succ_apply']
    exact adjStep_subset_nodes G _ hwf ih

theorem adjB_of_edge_left (G : Graph) (e : EdgeRec) (he : e ∈ G.edges) :
    adjB G e.u e.v = true :=
  List.any_eq_true.mpr ⟨e, he, by simp⟩

theorem adjB_of_edge_right (G : Graph) (e : EdgeRec) (he : e ∈ G.edges) :
    adjB G e.v e.u = true :=
  List.any_eq_true.mpr ⟨e, he, by simp⟩

/-- A node reached within k expansion steps is reached by a walk of length
at most k. -/
theorem walk_of_iterate (G : Graph) (hwf : Wf G) (x : String) (hx : x ∈ G.nodes) :
    ∀ (k : ℕ) (y : String), y ∈ (adjStep G)^[k] {x} →
      ∃ j, j ≤ k ∧ 0 < walkCount G j x y := by
  intro k
  induction k with
  | zero =>
    intro y hy
    simp only [Function.iterate_zero, id_eq, Finset.mem_singleton] at hy
    refine ⟨0, Nat.le_refl 0, ?_⟩
    rw [hy]
    simp [walkCount]
  | succ k ih =>
    intro y hy
    rw [Function.iterate_succ_apply'] at hy
    rcases Finset.mem_union.mp hy with h | h
    · rcases ih y h with ⟨j, hj, hw⟩
      exact ⟨j, hj.trans (Nat.le_succ k), hw⟩
    · rcases (mem_outNbrs G _ y).mp (List.mem_toFinset.mp h) with ⟨e, he, hc⟩
      have step1 : ∀ u, u ∈ (adjStep G)^[k] {x} → adjB G u y = true →
          ∃ j, j ≤ k + 1 ∧ 0 < walkCount G j x y := by
        intro u hu hadj
        rcases ih u hu with ⟨j, hj, hw⟩
        refine ⟨j + 1, by omega, ?_⟩
        have hun : u ∈ G.nodes :=
          List.mem_toFinset.mp (iterate_subset_nodes G x hwf hx k hu)
        show 0 < (G.nodes.map (fun w => if adjB G w y then walkCount G j x w else 0)).sum
        have hle2 : walkCount G j x u ≤
            (G.nodes.map (fun w => if adjB G w y then walkCount G j x w else 0)).sum := by
          have hle := le_sum_map_of_mem G.nodes
            (fun w => if adjB G w y then walkCount G j x w else 0) u hun
          simpa [hadj] using hle
        omega
      rcases hc with ⟨hu, rfl⟩ | ⟨hu, rfl⟩
      · exact step1 e.u hu (adjB_of_edge_left G e he)
      · exact step1 e.v hu (adjB_of_edge_right G e he)

theorem distB_isSome_of_reach (H : Graph) (hwf : Wf H) (s t : String)
    (hs : s ∈ H.nodes) (ht : t ∈ reachF H s) : (distB H s t).isSome := by
  rcases walk_of_iterate H hwf s hs H.nodes.length t ht with ⟨j, hj, hw⟩
  rw [distB, List.find?_isSome]
  exact ⟨j, List.mem_range.mpr (by omega), by simpa using hw⟩

theorem wf_inducedSubgraph (G : Graph) (c : List String) (hwf : Wf G) :
    Wf (inducedSubgraph G c) := by
  obtain ⟨h1, h2, h3⟩ := hwf
  refine ⟨List.Nodup.filter _ h1, ?_, h3.sublist (List.filter_sublist _)⟩
  intro e he
  rcases List.mem_filter.mp he with ⟨heG, hcond⟩
  simp only [Bool.and_eq_true, decide_eq_true_eq] at hcond
  constructor
  · exact List.mem_filter.mpr ⟨(h2 e heG).1, by simpa using hcond.1⟩
  · exact List.mem_filter.mpr ⟨(h2 e heG).2, by simpa using hcond.2⟩

theorem induced_nodes_eq (G : Graph) (r : String) :
    (inducedSubgraph G (compList G r)).nodes = compList G r := by
  have hpt : ∀ x ∈ G.nodes,
      (decide (x ∈ compList G r)) = (decide (x ∈ reachF G r)) := by
    intro x hx
    by_cases h : x ∈ reachF G r
    · simp [mem_compList, hx, h]
    · simp [mem_compList, h]
  calc (inducedSubgraph G (compList G r)).nodes
      = G.nodes.filter (fun v => decide (v ∈ reachF G r)) :=
        List.filter_congr hpt
    _ = compList G r := rfl

/-- Class equality inside a component list. -/
theorem reachF_eq_of_mem_compList (G : Graph) (hwf : Wf G) (r s : String)
    (hr : r ∈ G.nodes) (hs : s ∈ compList G r) : reachF G s = reachF G r := by
  rcases (mem_compList G r s).mp hs with ⟨_, hsr⟩
  exact (reachF_congr G r s hwf hr hsr).symm

/-- Reachability inside a component transfers to the induced subgraph. -/
theorem reachF_induced (G : Graph) (hwf : Wf G) (r : String) (hr : r ∈ G.nodes)
    (s : String) (hs : s ∈ compList G r) :
    ∀ t, t ∈ reachF G s → t ∈ reachF (inducedSubgraph G (compList G r)) s := by
  set c := compList G r with hc
  set GC := inducedSubgraph G c with hGC
  have hwfGC : Wf GC := wf_inducedSubgraph G c hwf
  have hsn : s ∈ G.nodes := ((mem_compList G r s).mp hs).1
  have hsGC : s ∈ GC.nodes := by
    show s ∈ G.nodes.filter (fun v => decide (v ∈ c))
    exact List.mem_filter.mpr ⟨hsn, by simpa using hs⟩
  have hclass : reachF G s = reachF G r := reachF_eq_of_mem_compList G hwf r s hr hs
  have hclosedGC : adjStep GC (reachF GC s) = reachF GC s :=
    adjStep_reachF GC s hwfGC hsGC
  have hkey : ∀ k, (adjStep G)^[k] {s} ⊆ reachF GC s := by
    intro k
    induction k with
    | zero => simpa using mem_reachF_self GC s
    | succ k ih =>
      rw [Function.iterate_succ_apply']
      intro v hv
      rcases Finset.mem_union.mp hv with h | h
      · exact ih h
      · rcases (mem_outNbrs G _ v).mp (List.mem_toFinset.mp h) with ⟨e, he, hcase⟩
        -- v lies in the component c
        have hvreach : v ∈ reachF G s := by
          have hsub : (adjStep G)^[k + 1] {s} ⊆ reachF G s :=
            iterate_subset_of_closed G (reachF G s) s
              (le_of_eq (adjStep_reachF G s hwf hsn)) (mem_reachF_self G s) (k + 1)
          apply hsub
          rw [Function.iterate_succ_apply']
          exact Finset.mem_union_right _ h
        have hvnodes : v ∈ G.nodes :=
          List.mem_toFinset.mp (reachF_subset_nodes G s hwf hsn hvreach)
        have hvc : v ∈ c := by
          rw [hc]
          refine (mem_compList G r v).mpr ⟨hvnodes, ?_⟩
          rw [← hclass]
          exact hvreach
        -- the witnessing neighbour lies in the component as well
        have humem : ∀ u, u ∈ reachF GC s → u ∈ c := by
          intro u hu
          have := reachF_subset_nodes GC s hwfGC hsGC hu
          have huGC : u ∈ GC.nodes := List.mem_toFinset.mp this
          exact (List.mem_filter.mp huGC).2 |> fun h => by simpa using h
        rcases hcase with ⟨hu, rfl⟩ | ⟨hu, rfl⟩
        · have huGC : e.u ∈ reachF GC s := ih hu
          have heGC : e ∈ GC.edges := by
            show e ∈ G.edges.filter (fun e => decide (e.u ∈ c) && decide (e.v ∈ c))
            refine List.mem_filter.mpr ⟨he, ?_⟩
            simp [humem e.u huGC, hvc]
          rw [← hclosedGC]
          refine Finset.mem_union_right _ (List.mem_toFinset.mpr ?_)
          exact (mem_outNbrs GC _ e.v).mpr ⟨e, heGC, Or.inl ⟨huGC, rfl⟩⟩
        · have huGC : e.v ∈ reachF GC s := ih hu
          have heGC : e ∈ GC.edges := by
            show e ∈ G.edges.filter (fun e => decide (e.u ∈ c) && decide (e.v ∈ c))
            refine List.mem_filter.mpr ⟨he, ?_⟩
            simp [humem e.v huGC, hvc]
          rw [← hclosedGC]
          refine Finset.mem_union_right _ (List.mem_toFinset.mpr ?_)
          exact (mem_outNbrs GC _ e.u).mpr ⟨e, heGC, Or.inr ⟨huGC, rfl⟩⟩
  intro t ht
  exact hkey G.nodes.length ht

theorem le_foldr_max (l : List ℕ) (a : ℕ) (ha : a ∈ l) : a ≤ l.foldr max 0 := by
  induction l with
  | nil => cases ha
  | cons x xs ih =>
    rcases List.mem_cons.mp ha with rfl | ha'
    · exact le_max_left _ _
    · exact (ih ha').trans (le_max_right _ _)

theorem foldr_max_mem (l : List ℕ) (h : l ≠ []) : l.foldr max 0 ∈ l := by
  induction l with
  | nil => exact absurd rfl h
  | cons x xs ih =>
    cases hxs : xs with
    | nil =>
      simp [hxs]
    | cons y ys =>
      rw [← hxs]
      have hxs' : xs ≠ [] := by rw [hxs]; exact List.cons_ne_nil y ys
      show max x (xs.foldr max 0) ∈ x :: xs
      rcases le_total (xs.foldr max 0) x with hle | hle
      · rw [max_eq_left hle]
        exact List.mem_cons_self x xs
      · rw [max_eq_right hle]
        exact List.mem_cons_of_mem x (ih hxs')

theorem mem_allDistList (H : Graph) (x : Option ℕ) :
    x ∈ allDistList H ↔ ∃ s ∈ H.nodes, ∃ t ∈ H.nodes, x = distB H s t := by
  unfold allDistList
  rw [List.mem_flatMap]
  constructor
  · rintro ⟨s, hs, hx⟩
    rcases List.mem_map.mp hx with ⟨t, ht, rfl⟩
    exact ⟨s, hs, t, ht, rfl⟩
  · rintro ⟨s, hs, t, ht, rfl⟩
    exact ⟨s, hs, List.mem_map.mpr ⟨t, ht, rfl⟩⟩

/-- Inside the induced subgraph of a component, every pair of nodes has a
defined distance. -/
theorem allDistList_isSome (G : Graph) (hwf : Wf G) (r : String) (hr : r ∈ G.nodes) :
    (allDistList (inducedSubgraph G (compList G r))).all Option.isSome = true := by
  rw [List.all_eq_true]
  intro x hx
  rcases (mem_allDistList _ x).mp hx with ⟨s, hs, t, ht, rfl⟩
  have hnodes := induced_nodes_eq G r
  have hsC : s ∈ compList G r := by rw [← hnodes]; exact hs
  have htC : t ∈ compList G r := by rw [← hnodes]; exact ht
  have hclass : reachF G s = reachF G r := reachF_eq_of_mem_compList G hwf r s hr hsC
  have htreach : t ∈ reachF G s := by
    rw [hclass]
    exact ((mem_compList G r t).mp htC).2
  have htGC : t ∈ reachF (inducedSubgraph G (compList G r)) s :=
    reachF_induced G hwf r hr s hsC t htreach
  exact distB_isSome_of_reach (inducedSubgraph G (compList G r))
    (wf_inducedSubgraph G _ hwf) s t hs htGC

/-- C5 (amended): the scripts variant returns None for both
giant-component fields when the largest component is trivial, while the
root variant returns 0 and 0.0 there; when the largest component has at
least two nodes, both variants agree, the diameter is the largest
pairwise distance within that component (all such distances are defined),
and the mean path length is the rounded average of avgSPL. -/
theorem claim_C5 (G : Graph) (hwf : Wf G) (hn : G.nodes ≠ []) :
    ∃ largest, pyMaxBy (componentsOf G) (fun c => c.length) = some largest ∧
    (largest.length < 2 →
      gcFieldsScripts G = (none, none) ∧ gcFieldsRoot G = (some 0, some 0)) ∧
    (2 ≤ largest.length →
      ∃ d a, gcFieldsScripts G = (some d, some (pyRound 3 a)) ∧
        gcFieldsRoot G = gcFieldsScripts G ∧
        (∀ s ∈ (inducedSubgraph G largest).nodes,
         ∀ t ∈ (inducedSubgraph G largest).nodes,
          ∃ k, distB (inducedSubgraph G largest) s t = some k ∧ k ≤ d) ∧
        (∃ s t, distB (inducedSubgraph G largest) s t = some d) ∧
        avgSPL (inducedSubgraph G largest) = some a) := by
  rcases List.exists_mem_of_ne_nil G.nodes hn with ⟨v0, hv0⟩
  rcases exists_comp_of_mem G hwf v0 hv0 with ⟨c0, hc0, _⟩
  have hcompne : componentsOf G ≠ [] := List.ne_nil_of_mem hc0
  rcases pyMaxBy_isSome_of_ne_nil (componentsOf G) (fun c => c.length) hcompne
    with ⟨largest, hmax⟩
  have hlmem : largest ∈ componentsOf G := pyMaxBy_mem _ _ _ hmax
  rcases componentsOfAux_shape G G.nodes ∅ largest hlmem with ⟨r, hr, rfl⟩
  have hnodesEq := induced_nodes_eq G r
  have hlenEq : (inducedSubgraph G (compList G r)).nodes.length =
      (compList G r).length := by rw [hnodesEq]
  refine ⟨compList G r, hmax, ?_, ?_⟩
  · intro hsmall
    constructor
    · rw [gcFieldsScripts]
      simp only [hmax]
      rw [if_neg (by omega : ¬ 1 < (inducedSubgraph G (compList G r)).nodes.length)]
    · rw [gcFieldsRoot]
      simp only [hmax]
      rw [if_neg (by omega : ¬ 1 < (inducedSubgraph G (compList G r)).nodes.length)]
  · intro hbig
    have hall := allDistList_isSome G hwf r hr
    have hGCpos : 1 < (inducedSubgraph G (compList G r)).nodes.length := by omega
    have hdiam : diameterOf (inducedSubgraph G (compList G r)) =
        some (((allDistList (inducedSubgraph G (compList G r))).filterMap id).foldr max 0) := by
      rw [diameterOf, if_pos hall]
    have havg : avgSPL (inducedSubgraph G (compList G r)) =
        some (((((allDistList (inducedSubgraph G (compList G r))).filterMap id).map
            (fun k => (k : ℚ)))).sum /
          (((inducedSubgraph G (compList G r)).nodes.length : ℚ) *
            (((inducedSubgraph G (compList G r)).nodes.length : ℚ) - 1))) := by
      rw [avgSPL, if_pos hall]
    refine ⟨((allDistList (inducedSubgraph G (compList G r))).filterMap id).foldr max 0,
      ((((allDistList (inducedSubgraph G (compList G r))).filterMap id).map
          (fun k => (k : ℚ)))).sum /
        (((inducedSubgraph G (compList G r)).nodes.length : ℚ) *
          (((inducedSubgraph G (compList G r)).nodes.length : ℚ) - 1)),
      ?_, ?_, ?_, ?_, havg⟩
    · rw [gcFieldsScripts]
      simp only [hmax]
      rw [if_pos hGCpos, hdiam, havg]
      rfl
    · rw [gcFieldsRoot, gcFieldsScripts]
      simp only [hmax]
      rw [if_pos hGCpos, if_pos hGCpos]
    · intro s hs t ht
      have hsome : (distB (inducedSubgraph G (compList G r)) s t).isSome := by
        have hmem : distB (inducedSubgraph G (compList G r)) s t ∈
            allDistList (inducedSubgraph G (compList G r)) :=
          (mem_allDistList _ _).mpr ⟨s, hs, t, ht, rfl⟩
        exact List.all_eq_true.mp hall _ hmem
      rcases Option.isSome_iff_exists.mp hsome with ⟨k, hk⟩
      refine ⟨k, hk, ?_⟩
      apply le_foldr_max
      rw [List.mem_filterMap]
      refine ⟨some k, ?_, rfl⟩
      rw [← hk]
      exact (mem_allDistList _ _).mpr ⟨s, hs, t, ht, rfl⟩
    · have hGCne : (inducedSubgraph G (compList G r)).nodes ≠ [] := by
        intro hnil
        rw [hnil] at hlenEq
        simp at hlenEq
        omega
      rcases List.exists_mem_of_ne_nil _ hGCne with ⟨s0, hs0⟩
      have hmem0 : distB (inducedSubgraph G (compList G r)) s0 s0 ∈
          allDistList (inducedSubgraph G (compList G r)) :=
        (mem_allDistList _ _).mpr ⟨s0, hs0, s0, hs0, rfl⟩
      have hsome0 : (distB (inducedSubgraph G (compList G r)) s0 s0).isSome :=
        List.all_eq_true.mp hall _ hmem0
      rcases Option.isSome_iff_exists.mp hsome0 with ⟨k0, hk0⟩
      have hksne : (allDistList (inducedSubgraph G (compList G r))).filterMap id ≠ [] := by
        apply List.ne_nil_of_mem
        rw [List.mem_filterMap]
        exact ⟨some k0, by rw [← hk0]; exact hmem0, rfl⟩
      have hdm := foldr_max_mem _ hksne
      rw [List.mem_filterMap] at hdm
      rcases hdm with ⟨x, hxmem, hxid⟩
      rcases (mem_allDistList _ x).mp hxmem with ⟨s, _, t, _, rfl⟩
      refine ⟨s, t, ?_⟩
      cases hx : distB (inducedSubgraph G (compList G r)) s t with
      | none => rw [hx] at hxid; cases hxid
      | some k =>
        rw [hx] at hxid
        cases hxid
        rfl

/-- C5, counterexample to the claim as stated: on a one-node graph the
root variant stores 0 and 0.0 in the two fields, not None. -/
theorem claim_C5_counterexample :
    gcFieldsRoot (Graph.mk ["A"] []) = (some 0, some 0) ∧
    gcFieldsScripts (Graph.mk ["A"] []) = (none, none) := by
  constructor <;> with_unfolding_all decide

/-- C5 witness: the single-edge graph, whose largest component has two
nodes. -/
theorem claim_C5_witness :
    Wf (buildGraphFromFile ["A,B,0.9"]) ∧
    (buildGraphFromFile ["A,B,0.9"]).nodes ≠ [] ∧
    (∃ largest,
      pyMaxBy (componentsOf (buildGraphFromFile ["A,B,0.9"]))
        (fun c => c.length) = some largest ∧
      (largest.length < 2 →
        gcFieldsScripts (buildGraphFromFile ["A,B,0.9"]) = (none, none) ∧
        gcFieldsRoot (buildGraphFromFile ["A,B,0.9"]) = (some 0, some 0)) ∧
      (2 ≤ largest.length →
        ∃ d a, gcFieldsScripts (buildGraphFromFile ["A,B,0.9"]) =
            (some d, some (pyRound 3 a)) ∧
          gcFieldsRoot (buildGraphFromFile ["A,B,0.9"]) =
            gcFieldsScripts (buildGraphFromFile ["A,B,0.9"]) ∧
          (∀ s ∈ (inducedSubgraph (buildGraphFromFile ["A,B,0.9"]) largest).nodes,
           ∀ t ∈ (inducedSubgraph (buildGraphFromFile ["A,B,0.9"]) largest).nodes,
            ∃ k, distB (inducedSubgraph (buildGraphFromFile ["A,B,0.9"]) largest) s t =
              some k ∧ k ≤ d) ∧
          (∃ s t, distB (inducedSubgraph (buildGraphFromFile ["A,B,0.9"]) largest) s t =
            some d) ∧
          avgSPL (inducedSubgraph (buildGraphFromFile ["A,B,0.9"]) largest) = some a)) := by
  exact ⟨by decide, by decide, claim_C5 _ (by decide) (by decide)⟩

end GiantComponentLemmas

end Bioensis
